import Mathlib

/-!
# Verification development for the `bsa` archive codec

Shallow embedding of the texture-revision (`fo4`) archive reader and writer of
`include/bsa/fo4.hpp`, of the format detection, the path normalization and the string
codecs of `src/bsa/detail/common.cpp`, and of the hash of `include/bsa/tes3.hpp`.

Conventions of the embedding

* a byte is a `Fin 256`; byte sources, sinks and names are `List Byte`;
* fixed-width unsigned integers are `Nat` with an explicit `% 2 ^ w` at every
  cast or arithmetic step of the source (`std::size_t` is taken to be 64 bits wide);
* `assert(...)` is compiled out (release build), so it is a no-op in the model;
* an operation that cannot complete (a read past the end of the source, or control
  reaching `declare_unreachable()`) ends in a `Fault`; the source has no handler for
  either, so no state after a fault is modelled.
-/

namespace bsa

/-- One octet. -/
abbrev Byte := Fin 256

/-- The two ways an operation can fail to complete. -/
inductive Fault where
  | truncated
  | unreachable
  deriving DecidableEq, Repr

/-- Equality of outcomes is decidable. -/
instance Fault.decEqExcept {α : Type} [DecidableEq α] : DecidableEq (Except Fault α)
  | .ok a, .ok b =>
    if h : a = b then isTrue (by rw [h]) else isFalse (fun h1 => h (Except.ok.inj h1))
  | .error a, .error b =>
    if h : a = b then isTrue (by rw [h]) else isFalse (fun h1 => h (Except.error.inj h1))
  | .ok _, .error _ => isFalse (fun h => Except.noConfusion h)
  | .error _, .ok _ => isFalse (fun h => Except.noConfusion h)

/-- Little-endian encoding of the low `w` bytes of `x`. -/
def to_le : Nat → Nat → List Byte
  | 0, _ => []
  | w + 1, x => ⟨x % 256, Nat.mod_lt x (by decide)⟩ :: to_le w (x / 256)

/-- Little-endian decoding of a byte string. -/
def from_le : List Byte → Nat
  | [] => 0
  | b :: bs => b.val + 256 * from_le bs

/-- The `n` bytes of `data` that start at offset `off` (fewer if the data ends first). -/
def slice (data : List Byte) (off n : Nat) : List Byte := (data.drop off).take n

/-- The little-endian unsigned integer stored in the `w` bytes of `data` at offset `off`. -/
def le_at (data : List Byte) (off w : Nat) : Nat := from_le (slice data off w)

namespace detail

/-- Modelled from the spec: `declare_unreachable()` of the absent `bsa/detail/common.hpp`;
control reaching it is a fault of the operation. -/
def declare_unreachable {α : Type} : Except Fault α := .error .unreachable

/-- Modelled from the spec: the reader role of the Binary Stream (`istream_t` of the absent
`bsa/detail/common.hpp`): a byte source with a cursor. -/
structure istream_t where
  data : List Byte
  pos : Nat
  deriving DecidableEq, Repr

/-- Modelled from the spec: `read_bytes(n)`, a slice of the source at the cursor, that fails
with `TruncatedInput` if fewer than `n` bytes remain. -/
def istream_t.read_bytes (s : istream_t) (n : Nat) : Except Fault (List Byte × istream_t) :=
  if s.pos + n ≤ s.data.length then
    .ok (slice s.data s.pos n, { s with pos := s.pos + n })
  else
    .error .truncated

/-- Modelled from the spec: `read<T>()` for an unsigned integer of `w` bytes, little-endian. -/
def istream_t.read_uint (s : istream_t) (w : Nat) : Except Fault (Nat × istream_t) :=
  match s.read_bytes w with
  | .ok (bs, s1) => .ok (from_le bs, s1)
  | .error e => .error e

/-- Modelled from the spec: `seek_absolute(pos)`. -/
def istream_t.seek_absolute (s : istream_t) (p : Nat) : istream_t := { s with pos := p }

/-- Modelled from the spec: `seek_relative(delta)`. -/
def istream_t.seek_relative (s : istream_t) (d : Nat) : istream_t := { s with pos := s.pos + d }

/-- Modelled from the spec: `tell()`. -/
def istream_t.tell (s : istream_t) : Nat := s.pos

/-- Modelled from the spec: the writer role of the Binary Stream (`ostream_t`): the bytes
appended so far. `write<T>` of a `w`-byte unsigned integer appends its little-endian bytes. -/
abbrev ostream_t := List Byte

/-- Modelled from the spec: `write<T>(value)` for an unsigned integer of `w` bytes. -/
def ostream_t.write_uint (out : ostream_t) (w x : Nat) : ostream_t := out ++ to_le w x

/-- Modelled from the spec: `write_bytes(span)`. -/
def ostream_t.write_bytes (out : ostream_t) (bs : List Byte) : ostream_t := out ++ bs

end detail

namespace fo4

namespace detail

open bsa.detail

/-- The four characters of a tag packed into a `u32`, first character lowest
(`make_file_type`). -/
def make_file_type (a_type : List Char) : Nat :=
  ((List.range a_type.length).foldl
    (fun result i => result ||| ((a_type.getD i (Char.ofNat 0)).toNat % 256) <<< (i * 8)) 0)
    % 2 ^ 32

namespace constants

def btdx : Nat := make_file_type ['B', 'T', 'D', 'X']
def gnrl : Nat := make_file_type ['G', 'N', 'R', 'L']
def dx10 : Nat := make_file_type ['D', 'X', '1', '0']

def header_size : Nat := 0x18

def chunk_header_size_gnrl : Nat := 0x10
def chunk_header_size_dx10 : Nat := 0x18

def chunk_size_gnrl : Nat := 0x14
def chunk_size_dx10 : Nat := 0x18

end constants

/-- The fixed archive header (`detail::header_t`); `magic` and `version` are not stored,
only whether they were right (`_good`). -/
structure header_t where
  _format : Nat := 0
  _fileCount : Nat := 0
  _stringTableOffset : Nat := 0
  _good : Bool := true
  deriving DecidableEq, Repr

/-- The constructor `header_t(a_format, a_fileCount, a_stringTableOffset)`. -/
def header_t.make (a_format a_fileCount a_stringTableOffset : Nat) : header_t :=
  { _format := a_format % 2 ^ 32,
    _fileCount := a_fileCount % 2 ^ 32,
    _stringTableOffset := a_stringTableOffset % 2 ^ 64 }

def header_t.archive_format (h : header_t) : Nat := h._format
def header_t.file_count (h : header_t) : Nat := h._fileCount
def header_t.good (h : header_t) : Bool := h._good
def header_t.string_table_offset (h : header_t) : Nat := h._stringTableOffset

/-- The extraction `a_in >> a_header`. -/
def header_t.read (a_header : header_t) (a_in : istream_t) :
    Except Fault (header_t × istream_t) := do
  let (magic, s1) ← a_in.read_uint 4
  let (version, s2) ← s1.read_uint 4
  let (fmt, s3) ← s2.read_uint 4
  let (cnt, s4) ← s3.read_uint 4
  let (sto, s5) ← s4.read_uint 8
  let h : header_t :=
    { a_header with _format := fmt, _fileCount := cnt, _stringTableOffset := sto }
  if magic ≠ constants.btdx then
    pure ({ h with _good := false }, s5)
  else if version ≠ 1 then
    pure ({ h with _good := false }, s5)
  else
    pure (h, s5)

/-- The insertion `a_out << a_header`. -/
def header_t.write (a_header : header_t) (a_out : ostream_t) : ostream_t :=
  let o1 := ostream_t.write_uint a_out 4 constants.btdx
  let o2 := ostream_t.write_uint o1 4 1
  let o3 := ostream_t.write_uint o2 4 a_header._format
  let o4 := ostream_t.write_uint o3 4 a_header._fileCount
  ostream_t.write_uint o4 8 a_header._stringTableOffset

end detail

/-- The values of `enum class format : std::uint32_t`; a `format` is its underlying `u32`,
since `archive::read` casts any header value to it. -/
abbrev format := Nat

def format.general : format := detail.constants.gnrl
def format.directx : format := detail.constants.dx10

namespace hashing

/-- The three-field hash of the texture revision (`hashing::hash`). -/
structure hash where
  file : Nat := 0
  ext : Nat := 0
  dir : Nat := 0
  deriving DecidableEq, Repr

/-- The extraction `a_in >> a_hash`. -/
def hash.read (a_in : bsa.detail.istream_t) :
    Except Fault (hash × bsa.detail.istream_t) := do
  let (file, s1) ← a_in.read_uint 4
  let (ext, s2) ← s1.read_uint 4
  let (dir, s3) ← s2.read_uint 4
  pure ({ file := file, ext := ext, dir := dir }, s3)

/-- The insertion `a_out << a_hash`. -/
def hash.write (a_hash : hash) (a_out : bsa.detail.ostream_t) : bsa.detail.ostream_t :=
  let o1 := bsa.detail.ostream_t.write_uint a_out 4 a_hash.file
  let o2 := bsa.detail.ostream_t.write_uint o1 4 a_hash.ext
  bsa.detail.ostream_t.write_uint o2 4 a_hash.dir

end hashing

namespace detail

open bsa.detail

/-- Modelled from the spec: `restore_point` of the absent `bsa/detail/common.hpp`: the cursor
is snapshotted, the scope `body` runs, and the cursor is put back when the scope is left. -/
def restore_point {α : Type} (a_in : istream_t)
    (body : istream_t → Except Fault (α × istream_t)) : Except Fault (α × istream_t) :=
  match body a_in with
  | .ok (a, s) => .ok (a, s.seek_absolute a_in.tell)
  | .error e => .error e

namespace components

/-- Modelled from the spec: the Compressed Container (`compressed_byte_container` of the
absent `bsa/detail/common.hpp`): the stored bytes and the optional decompressed-size tag.
The three ownership modes of the bytes are not distinguished. -/
structure compressed_byte_container where
  data : List Byte := []
  decompsz : Option Nat := none
  deriving DecidableEq, Repr

/-- Modelled from the spec: `as_bytes()`. -/
def compressed_byte_container.as_bytes (c : compressed_byte_container) : List Byte := c.data

/-- Modelled from the spec: `size()`, the stored (possibly compressed) length. -/
def compressed_byte_container.size (c : compressed_byte_container) : Nat := c.data.length

/-- Modelled from the spec: `compressed()`, whether the decompressed-size tag is set. -/
def compressed_byte_container.compressed (c : compressed_byte_container) : Bool :=
  c.decompsz.isSome

/-- Modelled from the spec: `decompressed_size()`, the tag when set, the stored size otherwise. -/
def compressed_byte_container.decompressed_size (c : compressed_byte_container) : Nat :=
  match c.decompsz with
  | some n => n
  | none => c.size

/-- Modelled from the spec: `set_data(bytes, source, optional_decompressed_size)`. -/
def compressed_byte_container.set_data (_c : compressed_byte_container)
    (bytes : List Byte) (decompsz : Option Nat) : compressed_byte_container :=
  { data := bytes, decompsz := decompsz }

end components

end detail

open bsa.detail bsa.fo4.detail

/-- The mip range of a chunk (`chunk::mips_t`). -/
structure chunk.mips_t where
  first : Nat := 0
  last : Nat := 0
  deriving DecidableEq, Repr

/-- The extraction `a_in >> a_mips`. -/
def chunk.mips_t.read (a_in : istream_t) : Except Fault (chunk.mips_t × istream_t) := do
  let (first, s1) ← a_in.read_uint 2
  let (last, s2) ← s1.read_uint 2
  pure ({ first := first, last := last }, s2)

/-- The insertion `a_out << a_mips`. -/
def chunk.mips_t.write (a_mips : chunk.mips_t) (a_out : ostream_t) : ostream_t :=
  ostream_t.write_uint (ostream_t.write_uint a_out 2 a_mips.first) 2 a_mips.last

/-- One chunk of a file (`chunk`): a compressed container with a mip range. -/
structure chunk extends components.compressed_byte_container where
  mips : chunk.mips_t := {}
  deriving DecidableEq, Repr

def chunk.size (c : chunk) : Nat := c.tocompressed_byte_container.size
def chunk.compressed (c : chunk) : Bool := c.tocompressed_byte_container.compressed
def chunk.decompressed_size (c : chunk) : Nat := c.tocompressed_byte_container.decompressed_size
def chunk.as_bytes (c : chunk) : List Byte := c.tocompressed_byte_container.as_bytes

def chunk.set_data (c : chunk) (bytes : List Byte) (decompsz : Option Nat) : chunk :=
  { c with tocompressed_byte_container := c.tocompressed_byte_container.set_data bytes decompsz }

/-- The private `chunk::read`. -/
def chunk.read (self : chunk) (a_in : istream_t) (a_format : format) :
    Except Fault (chunk × istream_t) := do
  let (dataFileOffset, s1) ← a_in.read_uint 8
  let (compressedSize, s2) ← s1.read_uint 4
  let (decompressedSize, s3) ← s2.read_uint 4
  let size : Nat := if compressedSize ≠ 0 then compressedSize else decompressedSize
  let decompsz : Option Nat := if compressedSize ≠ 0 then some decompressedSize else none
  let (self1, s4) ←
    (if a_format = format.directx then
      (do
        let (m, s) ← chunk.mips_t.read s3
        pure ({ self with mips := m }, s) : Except Fault (chunk × istream_t))
    else
      pure (self, s3))
  let (_sentinel, s5) ← s4.read_uint 4
  restore_point s5 (fun s => do
    let s6 := s.seek_absolute dataFileOffset
    let (bytes, s7) ← s6.read_bytes size
    pure (self1.set_data bytes decompsz, s7))

/-- The private `chunk::write`; the result is the sink and the updated `a_dataOffset`. -/
def chunk.write (self : chunk) (a_out : ostream_t) (a_format : format) (a_dataOffset : Nat) :
    ostream_t × Nat :=
  let size := self.size
  let o1 := ostream_t.write_uint a_out 8 a_dataOffset
  let o2 := ostream_t.write_uint o1 4
    ((if self.compressed then self.decompressed_size else 0) % 2 ^ 32)
  let o3 := ostream_t.write_uint o2 4 (size % 2 ^ 32)
  let dataOffset := (a_dataOffset + size) % 2 ^ 64
  let o4 := if a_format = format.directx then self.mips.write o3 else o3
  (ostream_t.write_uint o4 4 0xBAADF00D, dataOffset)

/-- The texture header of a file (`file::header_t`). -/
structure file.header_t where
  height : Nat := 0
  width : Nat := 0
  mipCount : Nat := 0
  format : Nat := 0
  flags : Nat := 0
  tileMode : Nat := 0
  deriving DecidableEq, Repr

/-- The extraction `a_in >> a_header`. -/
def file.header_t.read (a_in : istream_t) : Except Fault (file.header_t × istream_t) := do
  let (height, s1) ← a_in.read_uint 2
  let (width, s2) ← s1.read_uint 2
  let (mipCount, s3) ← s2.read_uint 1
  let (fmt, s4) ← s3.read_uint 1
  let (flags, s5) ← s4.read_uint 1
  let (tileMode, s6) ← s5.read_uint 1
  pure ({ height := height, width := width, mipCount := mipCount, format := fmt,
          flags := flags, tileMode := tileMode }, s6)

/-- The insertion `a_out << a_header`. -/
def file.header_t.write (a_header : file.header_t) (a_out : ostream_t) : ostream_t :=
  let o1 := ostream_t.write_uint a_out 2 a_header.height
  let o2 := ostream_t.write_uint o1 2 a_header.width
  let o3 := ostream_t.write_uint o2 1 a_header.mipCount
  let o4 := ostream_t.write_uint o3 1 a_header.format
  let o5 := ostream_t.write_uint o4 1 a_header.flags
  ostream_t.write_uint o5 1 a_header.tileMode

/-- A file of the archive (`file`): its chunks and its texture header. -/
structure file where
  header : file.header_t := {}
  _chunks : List chunk := []
  deriving DecidableEq, Repr

def file.size (f : file) : Nat := f._chunks.length

/-- The loop of `file::read_chunk`: `count` times, a fresh chunk is appended and read. -/
def file.read_chunk.loop : Nat → file → istream_t → format → Except Fault (file × istream_t)
  | 0, self, a_in, _ => pure (self, a_in)
  | n + 1, self, a_in, a_format => do
    let (c, s) ← chunk.read {} a_in a_format
    file.read_chunk.loop n { self with _chunks := self._chunks ++ [c] } s a_format

/-- The private `file::read_chunk`. -/
def file.read_chunk (self : file) (a_in : istream_t) (a_format : format) :
    Except Fault (file × istream_t) := do
  let s0 := a_in.seek_relative 1
  let (count, s1) ← s0.read_uint 1
  let (_hdrsz, s2) ← s1.read_uint 2
  let (self1, s3) ←
    (if a_format = format.general then
      pure (self, s2)
    else if a_format = format.directx then
      (do
        let (h, s) ← file.header_t.read s2
        pure ({ self with header := h }, s) : Except Fault (file × istream_t))
    else
      declare_unreachable)
  file.read_chunk.loop count self1 s3 a_format

/-- The loop of `file::write_chunk` over the chunks of the file. -/
def file.write_chunk.loop : List chunk → ostream_t → format → Nat → ostream_t × Nat
  | [], a_out, _, a_dataOffset => (a_out, a_dataOffset)
  | c :: cs, a_out, a_format, a_dataOffset =>
    let r := c.write a_out a_format a_dataOffset
    file.write_chunk.loop cs r.1 a_format r.2

/-- The private `file::write_chunk`. The `directx` case of the switch has no `break`: after
the chunk-header size and the texture header are written, control continues into the
`default` label. -/
def file.write_chunk (self : file) (a_out : ostream_t) (a_format : format)
    (a_dataOffset : Nat) : Except Fault (ostream_t × Nat) := do
  let o1 := ostream_t.write_uint a_out 1 0
  let o2 := ostream_t.write_uint o1 1 (self.size % 2 ^ 8)
  let o3 ←
    (if a_format = format.general then
      pure (ostream_t.write_uint o2 2 (constants.chunk_header_size_gnrl % 2 ^ 16))
    else if a_format = format.directx then
      (do
        let o := self.header.write
          (ostream_t.write_uint o2 2 (constants.chunk_header_size_dx10 % 2 ^ 16))
        let _ ← (declare_unreachable : Except Fault Unit)
        pure o : Except Fault ostream_t)
    else
      declare_unreachable)
  pure (file.write_chunk.loop self._chunks o3 a_format a_dataOffset)

namespace detail

/-- Modelled from the spec: the Key (`key_t` of the absent `bsa/detail/common.hpp`): the
hash and the name as given; equality of keys is equality of their hashes. -/
structure key_t where
  hash : hashing.hash
  name : List Byte
  deriving DecidableEq, Repr

end detail

/-- The key of a file (`file::key`). -/
abbrev file.key := detail.key_t

namespace detail

namespace components

/-- Modelled from the spec: the Entry Map (`hashmap` of the absent `bsa/detail/common.hpp`):
the entries in insertion order, at most one per hash. -/
structure hashmap (T : Type) where
  entries : List (key_t × T) := []
  deriving DecidableEq, Repr

variable {T : Type}

/-- Modelled from the spec: `clear()`. -/
def hashmap.clear (_m : hashmap T) : hashmap T := { entries := [] }

/-- Modelled from the spec: `size()`. -/
def hashmap.size (m : hashmap T) : Nat := m.entries.length

/-- Modelled from the spec: `emplace(key, value)`. A key whose hash is already present is
rejected: the map is unchanged and the result names the entry that is there, with `false`;
otherwise the entry is added last and the result names it, with `true`. -/
def hashmap.emplace (m : hashmap T) (k : key_t) (v : T) : hashmap T × Nat × Bool :=
  match m.entries.findIdx? (fun e => decide (e.1.hash = k.hash)) with
  | some i => (m, i, false)
  | none => ({ entries := m.entries ++ [(k, v)] }, m.entries.length, true)

/-- The mapped value behind the iterator `it` (`it->second`). -/
def hashmap.second (m : hashmap T) (it : Nat) (dflt : T) : T :=
  match m.entries.get? it with
  | some e => e.2
  | none => dflt

/-- Assignment through the iterator `it` to `it->second`. -/
def hashmap.set_second (m : hashmap T) (it : Nat) (v : T) : hashmap T :=
  { entries := m.entries.modify (fun e => (e.1, v)) it }

end components

end detail

/-- The texture-revision archive (`archive`), a `hashmap<file>`. -/
abbrev archive := detail.components.hashmap file

open detail.components

/-- The name lookup of `archive::read`: under a restore point, the cursor moves to `strpos`,
the `u16` length and the name are read, and `strpos` becomes the cursor after the name. -/
def archive.read.name (a_in : istream_t) (strpos : Nat) :
    Except Fault ((List Byte × Nat) × istream_t) :=
  restore_point a_in (fun s => do
    let s1 := s.seek_absolute strpos
    let (len, s2) ← s1.read_uint 2
    let (name, s3) ← s2.read_bytes len
    pure ((name, s3.tell), s3))

/-- The record loop of `archive::read`, with `n` records still to read. -/
def archive.read.loop : Nat → format → archive → istream_t → Nat →
    Except Fault (archive × istream_t)
  | 0, _, self, a_in, _ => pure (self, a_in)
  | n + 1, fmt, self, a_in, strpos => do
    let (hash, s1) ← hashing.hash.read a_in
    let ((name, strpos1), s2) ← archive.read.name s1 strpos
    let (self1, it, _success) := self.emplace { hash := hash, name := name } {}
    let (f, s3) ← (self1.second it {}).read_chunk s2 fmt
    archive.read.loop n fmt (self1.set_second it f) s3 strpos1

/-- The function `archive::read`. The source is `none` when the path cannot be opened.
The result is the archive after the call and the returned `std::optional<format>`. -/
def archive.read (self : archive) (src : Option (List Byte)) :
    Except Fault (archive × Option format) :=
  match src with
  | none => pure (self, none)
  | some bytes => do
    let (header, s) ← header_t.read {} { data := bytes, pos := 0 }
    if !header.good then
      pure (self, none)
    else do
      let self1 := self.clear
      let fmt : format := header.archive_format
      let (self2, _) ← archive.read.loop header.file_count fmt self1 s header.string_table_offset
      pure (self2, some fmt)

/-- One name lookup of `archive::read`, as observed from outside: the cursor at the start
of the record, the cursor before the lookup, the offset at which the lookup reads, the name
it yields, and the cursor after the lookup. -/
structure name_lookup where
  record : Nat
  before : Nat
  strpos : Nat
  name : List Byte
  after : Nat
  deriving DecidableEq, Repr

/-- The record loop of `archive::read` together with the log of its name lookups; the log
is an observation only and takes no part in the computation. -/
def archive.read.loop_logged : Nat → format → archive → istream_t → Nat →
    Except Fault (archive × istream_t × List name_lookup)
  | 0, _, self, a_in, _ => pure (self, a_in, [])
  | n + 1, fmt, self, a_in, strpos => do
    let (hash, s1) ← hashing.hash.read a_in
    let ((name, strpos1), s2) ← archive.read.name s1 strpos
    let (self1, it, _success) := self.emplace { hash := hash, name := name } {}
    let (f, s3) ← (self1.second it {}).read_chunk s2 fmt
    let (a, s, log) ← archive.read.loop_logged n fmt (self1.set_second it f) s3 strpos1
    pure (a, s,
      { record := a_in.pos, before := s1.pos, strpos := strpos, name := name,
        after := s2.pos } :: log)

/-- The lambda `inspect` of `archive::make_header`. -/
def archive.make_header.inspect (a_format : format) (a_gnrl a_dx10 : Nat) : Except Fault Nat :=
  if a_format = format.general then pure a_gnrl
  else if a_format = format.directx then pure a_dx10
  else declare_unreachable

/-- The loop of `archive::make_header` over the files; the state is `(dataOffset, dataSize)`. -/
def archive.make_header.loop : List (file.key × file) → format → Nat → Nat →
    Except Fault (Nat × Nat)
  | [], _, dataOffset, dataSize => pure (dataOffset, dataSize)
  | (_, f) :: rest, a_format, dataOffset, dataSize => do
    let k ← archive.make_header.inspect a_format constants.chunk_size_gnrl constants.chunk_size_dx10
    let dataOffset1 := (dataOffset + (k * f.size) % 2 ^ 64) % 2 ^ 64
    let dataSize1 := f._chunks.foldl (fun acc c => (acc + c.size) % 2 ^ 64) dataSize
    archive.make_header.loop rest a_format dataOffset1 dataSize1

/-- The private `archive::make_header`: the header and the offset of the data blob. -/
def archive.make_header (self : archive) (a_format : format) :
    Except Fault (header_t × Nat) := do
  let k ← archive.make_header.inspect a_format
    constants.chunk_header_size_gnrl constants.chunk_header_size_dx10
  let dataOffset0 := (constants.header_size + (k * self.size) % 2 ^ 64) % 2 ^ 64
  let (dataOffset, dataSize) ← archive.make_header.loop self.entries a_format dataOffset0 0
  pure (header_t.make a_format self.size ((dataOffset + dataSize) % 2 ^ 64), dataOffset)

/-- First loop of `archive::write`: per file, the hash and the chunk table. -/
def archive.write.records : List (file.key × file) → ostream_t → format → Nat →
    Except Fault (ostream_t × Nat)
  | [], out, _, dataOffset => pure (out, dataOffset)
  | (key, f) :: rest, out, a_format, dataOffset => do
    let o1 := key.hash.write out
    let (o2, dataOffset1) ← f.write_chunk o1 a_format dataOffset
    archive.write.records rest o2 a_format dataOffset1

/-- Second loop of `archive::write`: the stored bytes of every chunk of every file. -/
def archive.write.blob : List (file.key × file) → ostream_t → ostream_t
  | [], out => out
  | (_, f) :: rest, out =>
    archive.write.blob rest
      (f._chunks.foldl (fun o c => ostream_t.write_bytes o c.as_bytes) out)

/-- Third loop of `archive::write`: per file, the `u16` length of the name and the name. -/
def archive.write.names : List (file.key × file) → ostream_t → ostream_t
  | [], out => out
  | (key, _) :: rest, out =>
    let o1 := ostream_t.write_uint out 2 (key.name.length % 2 ^ 16)
    archive.write.names rest (ostream_t.write_bytes o1 key.name)

/-- The function `archive::write`. `sink_open` tells whether the path could be opened; the
result is the returned `bool` and the bytes written. -/
def archive.write (self : archive) (sink_open : Bool) (a_format : format) :
    Except Fault (Bool × ostream_t) :=
  if !sink_open then
    pure (false, [])
  else do
    let (header, dataOffset) ← self.make_header a_format
    let o1 := header.write []
    let (o2, _) ← archive.write.records self.entries o1 a_format dataOffset
    let o3 := archive.write.blob self.entries o2
    let o4 := archive.write.names self.entries o3
    pure (true, o4)

end fo4

namespace tes3

namespace hashing

/-- The hash of the simple revision (`tes3::hashing::hash`): two `std::uint32_t` fields. -/
structure hash where
  lo : Nat := 0
  hi : Nat := 0
  deriving DecidableEq, Repr

/-- The fields of the hash hold `std::uint32_t` values. -/
def hash.in_range (h : hash) : Prop := h.lo < 2 ^ 32 ∧ h.hi < 2 ^ 32

/-- The member `numeric()`: `hi` shifted by `0 * 8` bits or-ed with `lo` shifted by `4 * 8`
bits, each as a `std::uint64_t`. -/
def hash.numeric (h : hash) : Nat :=
  (((h.hi % 2 ^ 64) <<< (0 * 8)) % 2 ^ 64) ||| (((h.lo % 2 ^ 64) <<< (4 * 8)) % 2 ^ 64)

/-- The defaulted `operator==`: equality field by field. -/
def hash.equal (a_lhs a_rhs : hash) : Bool :=
  decide (a_lhs.lo = a_rhs.lo) && decide (a_lhs.hi = a_rhs.hi)

/-- The `operator<=>`: the three-way comparison of the numeric values. -/
def hash.three_way (a_lhs a_rhs : hash) : Ordering :=
  compare a_lhs.numeric a_rhs.numeric

end hashing

end tes3

/-- The archive revisions told apart by `guess_file_format` (`file_format`). -/
inductive file_format where
  | tes3
  | tes4
  | fo4
  deriving DecidableEq, Repr

/-- Modelled from the spec: `make_four_cc` of the absent `bsa/detail/common.hpp`: the
four-character tag, first character lowest, a tag shorter than four characters padded
with zero bytes. -/
def make_four_cc (a_cc : List Char) : Nat :=
  ((List.range (min a_cc.length 4)).foldl
    (fun result i => result ||| ((a_cc.getD i (Char.ofNat 0)).toNat % 256) <<< (i * 8)) 0)
    % 2 ^ 32

/-- The function `guess_file_format(detail::istream_t&)` of the anonymous namespace. -/
def guess_file_format.stream (a_in : detail.istream_t) : Except Fault (Option file_format) := do
  let (magic, _) ← a_in.read_uint 4
  if magic = 0x100 then pure (some file_format.tes3)
  else if magic = make_four_cc ['B', 'S', 'A'] then pure (some file_format.tes4)
  else if magic = make_four_cc ['B', 'T', 'D', 'X'] then pure (some file_format.fo4)
  else pure none

/-- The function `guess_file_format(std::span<const std::byte>)`. -/
def guess_file_format (a_src : List Byte) : Except Fault (Option file_format) :=
  guess_file_format.stream { data := a_src, pos := 0 }

namespace detail

/-- The lookup table `lut` of `mapchar`: every index maps to itself, then `'/'` is set to
`'\\'`, then each of `'A'..'Z'` is set to itself plus `'a' - 'A'`. -/
def mapchar.lut : List Byte :=
  let map0 : List Byte := (List.range 256).map (fun i => Fin.ofNat i)
  let map1 : List Byte := map0.set 0x2F 0x5C
  (List.range' 0x41 26).foldl (fun map i => map.set i (Fin.ofNat (i + (0x61 - 0x41)))) map1

/-- The function `mapchar` of the anonymous namespace: a lookup in `lut`. -/
def mapchar (a_ch : Byte) : Byte := mapchar.lut.getD a_ch.val 0

/-- First `while` loop of `normalize_path`: while the path is not empty and its last
character is `'\\'`, the last character is removed. The loop runs at most `size()` times,
which is the fuel. -/
def normalize_path.pop_back_loop : Nat → List Byte → List Byte
  | 0, a_path => a_path
  | n + 1, a_path =>
    if !a_path.isEmpty && a_path.getLast? == some 0x5C then
      normalize_path.pop_back_loop n a_path.dropLast
    else a_path

/-- Second `while` loop of `normalize_path`: while the path is not empty and its first
character is `'\\'`, the first character is erased. -/
def normalize_path.erase_front_loop : Nat → List Byte → List Byte
  | 0, a_path => a_path
  | n + 1, a_path =>
    if !a_path.isEmpty && a_path.head? == some 0x5C then
      normalize_path.erase_front_loop n a_path.tail
    else a_path

/-- The function `normalize_path`; the result is the path after the call. -/
def normalize_path (a_path : List Byte) : List Byte :=
  let p1 := a_path.map mapchar
  let p2 := normalize_path.pop_back_loop p1.length p1
  let p3 := normalize_path.erase_front_loop p2.length p2
  if p3.isEmpty || decide (p3.length ≥ 260) then [0x2E] else p3

/-- A `std::string_view` into the source of a stream: where it starts and how long it is. -/
structure string_view where
  start : Nat
  length : Nat
  deriving DecidableEq, Repr

/-- The bytes a view holds in the source `data` (what of it lies inside the source). -/
def string_view.bytes (v : string_view) (data : List Byte) : List Byte :=
  slice data v.start v.length

/-- The function `read_bstring`. -/
def read_bstring (a_in : istream_t) : Except Fault (string_view × istream_t) := do
  let (len, s1) ← a_in.read_uint 1
  let (_, s2) ← s1.read_bytes len
  pure ({ start := s1.pos, length := len }, s2)

/-- The function `read_bzstring`: the view starts at the bytes read and its length is
`len - 1u`, computed in `unsigned int`. -/
def read_bzstring (a_in : istream_t) : Except Fault (string_view × istream_t) := do
  let (len, s1) ← a_in.read_uint 1
  let (_, s2) ← s1.read_bytes len
  pure ({ start := s1.pos, length := (len + 2 ^ 32 - 1) % 2 ^ 32 }, s2)

/-- The function `read_wstring`. -/
def read_wstring (a_in : istream_t) : Except Fault (string_view × istream_t) := do
  let (len, s1) ← a_in.read_uint 2
  let (_, s2) ← s1.read_bytes len
  pure ({ start := s1.pos, length := len }, s2)

/-- The function `read_zstring`: one byte is read, a view is made of the C string that
starts at that byte (it runs to the first zero byte; without one in the source the scan
leaves the source), and the cursor moves on by the length of the view. -/
def read_zstring (a_in : istream_t) : Except Fault (string_view × istream_t) := do
  let (_, s1) ← a_in.read_bytes 1
  match (a_in.data.drop a_in.pos).indexOf? 0 with
  | none => .error .truncated
  | some n =>
    let result : string_view := { start := a_in.pos, length := n }
    pure (result, s1.seek_relative result.length)

/-- The function `write_zstring`. -/
def write_zstring (a_out : ostream_t) (a_string : List Byte) : ostream_t :=
  ostream_t.write_uint (ostream_t.write_bytes a_out a_string) 1 0

/-- The function `write_bzstring`. -/
def write_bzstring (a_out : ostream_t) (a_string : List Byte) : ostream_t :=
  write_zstring (ostream_t.write_uint a_out 1 ((a_string.length + 1) % 2 ^ 8)) a_string

/-- The function `write_wstring`. -/
def write_wstring (a_out : ostream_t) (a_string : List Byte) : ostream_t :=
  ostream_t.write_bytes (ostream_t.write_uint a_out 2 (a_string.length % 2 ^ 16)) a_string

end detail

end bsa

/-! ## The layout of a written archive, in the words of the specification -/

namespace bsa

namespace fo4

open bsa.detail bsa.fo4.detail bsa.fo4.detail.components

/-- The bytes of a file record before its chunk records: the 12-byte hash, the mod index,
the chunk count and the `u16` chunk-header size, and for directx the 8-byte texture header
(`chunk_header_size_gnrl`, `chunk_header_size_dx10`). -/
def file_record_size (a_format : format) : Nat :=
  if a_format = format.directx then constants.chunk_header_size_dx10
  else constants.chunk_header_size_gnrl

/-- The bytes of one chunk record (`chunk_size_gnrl`, `chunk_size_dx10`). -/
def chunk_record_size (a_format : format) : Nat :=
  if a_format = format.directx then constants.chunk_size_dx10
  else constants.chunk_size_gnrl

/-- The total stored size of the chunks of a file. -/
def file.stored_size (f : file) : Nat := (f._chunks.map chunk.size).sum

/-- The bytes of all file records and chunk records of the entries. -/
def records_size (a_format : format) (entries : List (file.key × file)) : Nat :=
  (entries.map
    (fun e => file_record_size a_format + chunk_record_size a_format * e.2.size)).sum

/-- The total stored size of all chunks of the entries. -/
def data_size (entries : List (file.key × file)) : Nat :=
  (entries.map (fun e => e.2.stored_size)).sum

/-- The name table: per entry the `u16` length and the raw name bytes, no terminator. -/
def name_table : List (file.key × file) → List Byte
  | [] => []
  | (key, _) :: rest => to_le 2 key.name.length ++ key.name ++ name_table rest

/-- The offset in the source `B` at which the name of entry `i` starts: the
`stringTableOffset` of the header (the `u64` at `0x10`) plus the sum over `j < i` of
`2 +` the length of the name of entry `j`. -/
def name_offset (B : List Byte) (entries : List (file.key × file)) (i : Nat) : Nat :=
  le_at B 0x10 8 + ((entries.take i).map (fun e => 2 + e.1.name.length)).sum

/-- In `out`, the chunk records of `cs`, of `rs` bytes each, start at `rp`, and the stored
bytes of the chunks start at `dp`: the `u64` at the start of each record is the offset of
that chunk's bytes, the bytes of the chunk are there, and the next chunk's bytes follow
immediately. -/
def chunks_laid_out (out : List Byte) (rs : Nat) : List chunk → Nat → Nat → Bool
  | [], _, _ => true
  | c :: cs, rp, dp =>
    decide (le_at out rp 8 = dp) && decide (slice out dp c.size = c.as_bytes)
      && chunks_laid_out out rs cs (rp + rs) (dp + c.size)

/-- In `out`, the file records of the entries start at `rp` (`fh` bytes before the chunk
records of each file, `rs` bytes per chunk record) and the stored bytes of their chunks
start at `dp`, file after file. -/
def files_laid_out (out : List Byte) (fh rs : Nat) :
    List (file.key × file) → Nat → Nat → Bool
  | [], _, _ => true
  | (_, f) :: rest, rp, dp =>
    chunks_laid_out out rs f._chunks (rp + fh) dp
      && files_laid_out out fh rs rest (rp + fh + rs * f.size) (dp + f.stored_size)

end fo4

end bsa

/-! ## Path normalization, in the words of the specification -/

namespace bsa

namespace detail

/-- The placeholder path `"."`. -/
def placeholder : List Byte := [0x2E]

/-- Whether a byte is the separator used on disk, `'\\'`. -/
def is_separator (c : Byte) : Bool := decide (c = 0x5C)

/-- Whether a byte is one of the two separators of a spelling, `'/'` and `'\\'`. -/
def is_slash (c : Byte) : Bool := decide (c = 0x2F) || decide (c = 0x5C)

/-- Case folding and separator conversion of one byte: an ASCII upper-case letter becomes
the lower-case letter, `'/'` becomes `'\\'`, every other byte is kept. -/
def fold_byte (c : Byte) : Byte :=
  if 0x41 ≤ c.val ∧ c.val ≤ 0x5A then Fin.ofNat (c.val + 0x20)
  else if c = 0x2F then 0x5C
  else c

/-- Stripping of the trailing and the leading separators. -/
def strip_separators (p : List Byte) : List Byte :=
  (p.rdropWhile is_separator).dropWhile is_separator

/-- The case-folded, separator-converted and separator-stripped form of a path. -/
def folded_stripped (p : List Byte) : List Byte := strip_separators (p.map fold_byte)

/-- Two bytes are the same ASCII letter in different case. -/
def case_variant (c d : Byte) : Prop :=
  (0x41 ≤ c.val ∧ c.val ≤ 0x5A ∧ d.val = c.val + 0x20)
    ∨ (0x41 ≤ d.val ∧ d.val ≤ 0x5A ∧ c.val = d.val + 0x20)

/-- The path `q` is a spelling of the path `p`: it is obtained from `p` by changing the case
of ASCII letters, by exchanging `'/'` and `'\\'`, and by adding or removing leading or
trailing separators, in any number of steps. -/
inductive same_spelling : List Byte → List Byte → Prop
  | same (p : List Byte) : same_spelling p p
  | change_case (a b : List Byte) (c d : Byte) :
      case_variant c d → same_spelling (a ++ c :: b) (a ++ d :: b)
  | exchange (a b : List Byte) (c d : Byte) :
      is_slash c = true → is_slash d = true → same_spelling (a ++ c :: b) (a ++ d :: b)
  | add_leading (p : List Byte) (c : Byte) : is_slash c = true → same_spelling p (c :: p)
  | remove_leading (p : List Byte) (c : Byte) : is_slash c = true → same_spelling (c :: p) p
  | add_trailing (p : List Byte) (c : Byte) : is_slash c = true → same_spelling p (p ++ [c])
  | remove_trailing (p : List Byte) (c : Byte) :
      is_slash c = true → same_spelling (p ++ [c]) p
  | step (p q r : List Byte) : same_spelling p q → same_spelling q r → same_spelling p r

end detail

end bsa

/-! ## Concrete archives -/

namespace bsa

namespace fo4

open bsa.detail bsa.fo4.detail bsa.fo4.detail.components

/-- The name `"foo"`. -/
def foo : List Byte := [0x66, 0x6F, 0x6F]

/-- The bytes of the concrete texture-revision scenario: the header (`GNRL`, one file, names
at `0x40`), the record with hash `{1,2,3}` (mod index 0, one chunk, chunk-header size
`0x10`), the chunk record (with the given `dataOffset`, `compressedSize = 0`,
`decompressedSize = 4`, the sentinel), the payload `DE AD BE EF` and the name `"foo"`. -/
def scenario_bytes (dataOffset : Nat) : List Byte :=
  [0x42, 0x54, 0x44, 0x58] ++ to_le 4 1 ++ [0x47, 0x4E, 0x52, 0x4C] ++ to_le 4 1
    ++ to_le 8 0x40
    ++ to_le 4 1 ++ to_le 4 2 ++ to_le 4 3
    ++ [0x00, 0x01] ++ to_le 2 0x10
    ++ to_le 8 dataOffset ++ to_le 4 0 ++ to_le 4 4 ++ to_le 4 0xBAADF00D
    ++ [0xDE, 0xAD, 0xBE, 0xEF]
    ++ to_le 2 3 ++ foo

/-- The index with the single file `"foo"`, hash `{1,2,3}`, whose single chunk holds
`payload`, with the decompressed-size tag `decompsz`. -/
def single_file_index (payload : List Byte) (decompsz : Option Nat) : archive :=
  { entries :=
      [({ hash := { file := 1, ext := 2, dir := 3 }, name := foo },
        { header := {},
          _chunks := [{ data := payload, decompsz := decompsz, mips := {} }] })] }

/-- A source of `0x18` zero bytes: a whole header with a wrong magic. -/
def zero_header : List Byte := List.replicate 0x18 0

/-- The bytes of a general archive with the single file `"foo"` whose single chunk is stored
compressed: 2 stored bytes `AA BB` at `0x3C`, decompressed size 5. -/
def compressed_bytes : List Byte :=
  [0x42, 0x54, 0x44, 0x58] ++ to_le 4 1 ++ [0x47, 0x4E, 0x52, 0x4C] ++ to_le 4 1
    ++ to_le 8 0x3E
    ++ to_le 4 1 ++ to_le 4 2 ++ to_le 4 3
    ++ [0x00, 0x01] ++ to_le 2 0x10
    ++ to_le 8 0x3C ++ to_le 4 2 ++ to_le 4 5 ++ to_le 4 0xBAADF00D
    ++ [0xAA, 0xBB]
    ++ to_le 2 3 ++ foo

/-- What `archive::write` makes of the index read from `compressed_bytes`: the same bytes
but for the two size fields of the chunk record, which hold 5 and 2. -/
def rewritten_bytes : List Byte :=
  [0x42, 0x54, 0x44, 0x58] ++ to_le 4 1 ++ [0x47, 0x4E, 0x52, 0x4C] ++ to_le 4 1
    ++ to_le 8 0x3E
    ++ to_le 4 1 ++ to_le 4 2 ++ to_le 4 3
    ++ [0x00, 0x01] ++ to_le 2 0x10
    ++ to_le 8 0x3C ++ to_le 4 5 ++ to_le 4 2 ++ to_le 4 0xBAADF00D
    ++ [0xAA, 0xBB]
    ++ to_le 2 3 ++ foo

/-- The name lookups of the read of `two_file_bytes`: the records start at `0x18` and `0x50`,
the names are read at `0x7A` and `0x7F`. -/
def two_file_log : List name_lookup :=
  [{ record := 0x18, before := 0x24, strpos := 0x7A, name := [0x66, 0x6F, 0x6F],
     after := 0x24 },
   { record := 0x50, before := 0x5C, strpos := 0x7F, name := [0x62, 0x61, 0x72],
     after := 0x5C }]

/-- The bytes of a general archive of two records that carry the same hash `{1,2,3}`: the
first declares the chunks `01 02 03` and `04` and has the name `"foo"`, the second declares
the chunk `05 06` and has the name `"bar"`. -/
def duplicate_hash_bytes : List Byte :=
  [0x42, 0x54, 0x44, 0x58] ++ to_le 4 1 ++ [0x47, 0x4E, 0x52, 0x4C] ++ to_le 4 2
    ++ to_le 8 0x7A
    ++ to_le 4 1 ++ to_le 4 2 ++ to_le 4 3
    ++ [0x00, 0x02] ++ to_le 2 0x10
    ++ to_le 8 0x74 ++ to_le 4 0 ++ to_le 4 3 ++ to_le 4 0xBAADF00D
    ++ to_le 8 0x77 ++ to_le 4 0 ++ to_le 4 1 ++ to_le 4 0xBAADF00D
    ++ to_le 4 1 ++ to_le 4 2 ++ to_le 4 3
    ++ [0x00, 0x01] ++ to_le 2 0x10
    ++ to_le 8 0x78 ++ to_le 4 0 ++ to_le 4 2 ++ to_le 4 0xBAADF00D
    ++ [0x01, 0x02, 0x03] ++ [0x04] ++ [0x05, 0x06]
    ++ to_le 2 3 ++ [0x66, 0x6F, 0x6F] ++ to_le 2 3 ++ [0x62, 0x61, 0x72]

/-- The index that `archive::read` builds from `duplicate_hash_bytes`: the single file
`"foo"`, with the chunks of both records. -/
def merged_index : archive :=
  { entries :=
      [({ hash := { file := 1, ext := 2, dir := 3 }, name := [0x66, 0x6F, 0x6F] },
        { header := {},
          _chunks := [{ data := [0x01, 0x02, 0x03], decompsz := none, mips := {} },
                      { data := [0x04], decompsz := none, mips := {} },
                      { data := [0x05, 0x06], decompsz := none, mips := {} }] })] }

/-- The bytes of an archive whose header passes validation (`BTDX`, version 1) and whose
format field holds 0: one record with hash `{1,2,3}`, no chunk, and the name `"foo"` at
`0x28`. -/
def zero_format_bytes : List Byte :=
  [0x42, 0x54, 0x44, 0x58] ++ to_le 4 1 ++ to_le 4 0 ++ to_le 4 1
    ++ to_le 8 0x28
    ++ to_le 4 1 ++ to_le 4 2 ++ to_le 4 3
    ++ [0x00, 0x00] ++ to_le 2 0x10
    ++ to_le 2 3 ++ [0x66, 0x6F, 0x6F]

/-- The name `"bar"`. -/
def bar : List Byte := [0x62, 0x61, 0x72]

/-- An index of two files: `"foo"` with the chunks `01 02 03` and `04`, and `"bar"` with the
chunk `05 06`. -/
def two_file_index : archive :=
  { entries :=
      [({ hash := { file := 1, ext := 2, dir := 3 }, name := foo },
        { header := {},
          _chunks := [{ data := [0x01, 0x02, 0x03], decompsz := none, mips := {} },
                      { data := [0x04], decompsz := none, mips := {} }] }),
       ({ hash := { file := 4, ext := 5, dir := 6 }, name := bar },
        { header := {},
          _chunks := [{ data := [0x05, 0x06], decompsz := none, mips := {} }] })] }

/-- The bytes `archive::write` emits for `two_file_index` in the general format. -/
def two_file_bytes : List Byte :=
  [0x42, 0x54, 0x44, 0x58] ++ to_le 4 1 ++ [0x47, 0x4E, 0x52, 0x4C] ++ to_le 4 2
    ++ to_le 8 0x7A
    ++ to_le 4 1 ++ to_le 4 2 ++ to_le 4 3
    ++ [0x00, 0x02] ++ to_le 2 0x10
    ++ to_le 8 0x74 ++ to_le 4 0 ++ to_le 4 3 ++ to_le 4 0xBAADF00D
    ++ to_le 8 0x77 ++ to_le 4 0 ++ to_le 4 1 ++ to_le 4 0xBAADF00D
    ++ to_le 4 4 ++ to_le 4 5 ++ to_le 4 6
    ++ [0x00, 0x01] ++ to_le 2 0x10
    ++ to_le 8 0x78 ++ to_le 4 0 ++ to_le 4 2 ++ to_le 4 0xBAADF00D
    ++ [0x01, 0x02, 0x03] ++ [0x04] ++ [0x05, 0x06]
    ++ to_le 2 3 ++ foo ++ to_le 2 3 ++ bar

end fo4

namespace detail

/-- A source that holds the length byte 0 and one more byte. -/
def zero_length_source : List Byte := [0x00, 0x41]

/-- The simple-revision hash with `lo = 1` and `hi = 5`. -/
def hash_one_five : tes3.hashing.hash := { lo := 1, hi := 5 }

/-- The simple-revision hash with `lo = 2` and `hi = 0`. -/
def hash_two_zero : tes3.hashing.hash := { lo := 2, hi := 0 }

/-- The path made of `n` letters `a`. -/
def path_of_a (n : Nat) : List Byte := List.replicate n 0x61

/-- The path `"/\\/"`, made only of separators. -/
def only_separators : List Byte := [0x2F, 0x5C, 0x2F]

/-- A source that holds `"ab"`, a zero byte and one more byte. -/
def zstring_source : List Byte := [0x61, 0x62, 0x00, 0x63]

/-- The path `"Ab/c"`. -/
def spelling_one : List Byte := [0x41, 0x62, 0x2F, 0x63]

/-- The path `"\\aB\\c/"`, another spelling of `"Ab/c"`. -/
def spelling_two : List Byte := [0x5C, 0x61, 0x42, 0x5C, 0x63, 0x2F]

end detail

end bsa

/-! ## Byte-level lemmas -/

namespace bsa

open bsa.detail bsa.fo4 bsa.fo4.detail bsa.fo4.detail.components

theorem to_le_length (w x : Nat) : (to_le w x).length = w := by
  induction w generalizing x with
  | zero => rfl
  | succ w ih => simp [to_le, ih]

theorem from_le_to_le (w x : Nat) : from_le (to_le w x) = x % 256 ^ w := by
  induction w generalizing x with
  | zero => simp [to_le, from_le, Nat.mod_one]
  | succ w ih =>
    simp only [to_le, from_le, ih]
    rw [pow_succ, Nat.mul_comm (256 ^ w) 256, Nat.mod_mul]

theorem from_le_lt (bs : List Byte) : from_le bs < 256 ^ bs.length := by
  induction bs with
  | nil => simp [from_le]
  | cons b bs ih =>
    have hb := b.isLt
    simp only [from_le, List.length_cons, pow_succ]
    omega

theorem slice_length (data : List Byte) (off n : Nat) (h : off + n ≤ data.length) :
    (slice data off n).length = n := by
  simp [slice]; omega

theorem slice_append_mid (pre bs post : List Byte) :
    slice (pre ++ bs ++ post) pre.length bs.length = bs := by
  simp [slice]

theorem le_at_lt (data : List Byte) (off w : Nat) : le_at data off w < 256 ^ w := by
  have h := from_le_lt (slice data off w)
  have hl : (slice data off w).length ≤ w := by simp [slice]
  exact lt_of_lt_of_le h (Nat.pow_le_pow_right (by decide) hl)

theorem read_bytes_ok (s : istream_t) (n : Nat) (h : s.pos + n ≤ s.data.length) :
    s.read_bytes n = .ok (slice s.data s.pos n, { data := s.data, pos := s.pos + n }) := by
  simp [istream_t.read_bytes, h]

theorem read_bytes_truncated (s : istream_t) (n : Nat) (h : s.data.length < s.pos + n) :
    s.read_bytes n = .error .truncated := by
  simp [istream_t.read_bytes]; omega

theorem read_uint_ok (s : istream_t) (w : Nat) (h : s.pos + w ≤ s.data.length) :
    s.read_uint w = .ok (le_at s.data s.pos w, { data := s.data, pos := s.pos + w }) := by
  simp [istream_t.read_uint, read_bytes_ok s w h, le_at]

theorem read_uint_truncated (s : istream_t) (w : Nat) (h : s.data.length < s.pos + w) :
    s.read_uint w = .error .truncated := by
  simp [istream_t.read_uint, read_bytes_truncated s w h]

/-! ## The fixed header -/

theorem btdx_eq : constants.btdx = 0x58445442 := by decide

theorem gnrl_eq : constants.gnrl = 0x4C524E47 := by decide

theorem dx10_eq : constants.dx10 = 0x30315844 := by decide

theorem header_write_eq (h : header_t) (out : ostream_t) :
    h.write out = out ++ (to_le 4 constants.btdx ++ to_le 4 1 ++ to_le 4 h._format
      ++ to_le 4 h._fileCount ++ to_le 8 h._stringTableOffset) := by
  simp [header_t.write, ostream_t.write_uint]

theorem header_write_length (h : header_t) (out : ostream_t) :
    (h.write out).length = out.length + 0x18 := by
  simp [header_write_eq, to_le_length]

/-- What `a_in >> a_header` yields on a source of at least `0x18` bytes, read from offset 0. -/
theorem header_read_ok (h0 : header_t) (B : List Byte) (hlen : 0x18 ≤ B.length) :
    header_t.read h0 { data := B, pos := 0 } =
      .ok ({ _format := le_at B 8 4, _fileCount := le_at B 12 4,
             _stringTableOffset := le_at B 16 8,
             _good := if le_at B 0 4 ≠ constants.btdx then false
                      else if le_at B 4 4 ≠ 1 then false else h0._good },
           { data := B, pos := 0x18 }) := by
  have e1 := read_uint_ok { data := B, pos := 0 } 4 (by simp; omega)
  have e2 := read_uint_ok { data := B, pos := 0 + 4 } 4 (by simp; omega)
  have e3 := read_uint_ok { data := B, pos := 0 + 4 + 4 } 4 (by simp; omega)
  have e4 := read_uint_ok { data := B, pos := 0 + 4 + 4 + 4 } 4 (by simp; omega)
  have e5 := read_uint_ok { data := B, pos := 0 + 4 + 4 + 4 + 4 } 8 (by simp; omega)
  simp only [header_t.read, e1, e2, e3, e4, e5, bind, Except.bind, pure, Except.pure]
  split_ifs <;> simp_all

theorem le_at_append_mid (pre bs post : List Byte) (k w : Nat)
    (hk : k = pre.length) (hw : w = bs.length) :
    le_at (pre ++ bs ++ post) k w = from_le bs := by
  subst hk hw
  rw [le_at, slice_append_mid]

theorem magic_bytes : from_le [0x42, 0x54, 0x44, 0x58] = constants.btdx := by decide

theorem one_bytes : from_le [1, 0, 0, 0] = 1 := by decide

/-- C8. Header layout and round trip: the header built from a format `f`, a file count
`n < 2^32` and a 64-bit string-table offset `s` is written as exactly `0x18` bytes, namely
`'B','T','D','X'`, then little-endian `u32 1`, `u32 f` (`'G','N','R','L'` for general,
`'D','X','1','0'` for directx), `u32 n`, `u64 s`; reading those bytes into a fresh header
gives `good() = true`, `archive_format() = f`, `file_count() = n` and
`string_table_offset() = s`. -/
theorem header_layout_round_trip (f n s : Nat)
    (hf : f < 2 ^ 32) (hn : n < 2 ^ 32) (hs : s < 2 ^ 64) :
    (header_t.make f n s).write [] =
        [0x42, 0x54, 0x44, 0x58] ++ [1, 0, 0, 0] ++ to_le 4 f ++ to_le 4 n ++ to_le 8 s
      ∧ ((header_t.make f n s).write []).length = 0x18
      ∧ to_le 4 format.general = [0x47, 0x4E, 0x52, 0x4C]
      ∧ to_le 4 format.directx = [0x44, 0x58, 0x31, 0x30]
      ∧ from_le (to_le 4 f) = f ∧ from_le (to_le 4 n) = n ∧ from_le (to_le 8 s) = s
      ∧ ∃ h : header_t,
          header_t.read {} { data := (header_t.make f n s).write [], pos := 0 } =
            .ok (h, { data := (header_t.make f n s).write [], pos := 0x18 })
          ∧ h.good = true ∧ h.archive_format = f ∧ h.file_count = n
          ∧ h.string_table_offset = s := by
  have hf' : f % 2 ^ 32 = f := Nat.mod_eq_of_lt hf
  have hn' : n % 2 ^ 32 = n := Nat.mod_eq_of_lt hn
  have hs' : s % 2 ^ 64 = s := Nat.mod_eq_of_lt hs
  have hmagic : to_le 4 constants.btdx = [0x42, 0x54, 0x44, 0x58] := by decide
  have hone : to_le 4 1 = [1, 0, 0, 0] := by decide
  have hout : (header_t.make f n s).write [] =
      [0x42, 0x54, 0x44, 0x58] ++ [1, 0, 0, 0] ++ to_le 4 f ++ to_le 4 n ++ to_le 8 s := by
    rw [header_write_eq]
    simp only [header_t.make, hf', hn', hs', hmagic, hone, List.nil_append]
  have ef : from_le (to_le 4 f) = f := by rw [from_le_to_le]; exact hf'
  have en : from_le (to_le 4 n) = n := by rw [from_le_to_le]; exact hn'
  have es : from_le (to_le 8 s) = s := by rw [from_le_to_le]; exact hs'
  refine ⟨hout, by simp [header_write_length], by decide, by decide, ef, en, es, ?_⟩
  have hlen : 0x18 ≤ ((header_t.make f n s).write []).length := by
    simp [header_write_length]
  have h0 : le_at ((header_t.make f n s).write []) 0 4 = constants.btdx := by
    rw [hout, ← magic_bytes]; rfl
  have h1 : le_at ((header_t.make f n s).write []) 4 4 = 1 := by
    rw [hout]
    show from_le [1, 0, 0, 0] = 1
    exact one_bytes
  have h2 : le_at ((header_t.make f n s).write []) 8 4 = f := by
    rw [hout]
    have := le_at_append_mid ([0x42, 0x54, 0x44, 0x58] ++ [1, 0, 0, 0]) (to_le 4 f)
      (to_le 4 n ++ to_le 8 s) 8 4 (by simp) (by rw [to_le_length])
    simpa [ef] using this
  have h3 : le_at ((header_t.make f n s).write []) 12 4 = n := by
    rw [hout]
    have := le_at_append_mid ([0x42, 0x54, 0x44, 0x58] ++ [1, 0, 0, 0] ++ to_le 4 f)
      (to_le 4 n) (to_le 8 s) 12 4 (by simp [to_le_length]) (by rw [to_le_length])
    simpa [en] using this
  have h4 : le_at ((header_t.make f n s).write []) 16 8 = s := by
    rw [hout]
    have := le_at_append_mid
      ([0x42, 0x54, 0x44, 0x58] ++ [1, 0, 0, 0] ++ to_le 4 f ++ to_le 4 n)
      (to_le 8 s) [] 16 8 (by simp [to_le_length]) (by rw [to_le_length])
    simpa [es] using this
  have hr := header_read_ok {} _ hlen
  rw [h0, h1, h2, h3, h4] at hr
  simp only [ne_eq, not_true_eq_false, if_false] at hr
  exact ⟨_, hr, rfl, rfl, rfl, rfl⟩

/-- Witness for C8: the header of a general archive of 3 files whose names start at 0x1234. -/
theorem header_layout_round_trip_witness :
    format.general < 2 ^ 32 ∧ 3 < 2 ^ 32 ∧ 0x1234 < 2 ^ 64
      ∧ (header_t.make format.general 3 0x1234).write [] =
          [0x42, 0x54, 0x44, 0x58] ++ [1, 0, 0, 0] ++ to_le 4 format.general ++ to_le 4 3
            ++ to_le 8 0x1234
      ∧ ((header_t.make format.general 3 0x1234).write []).length = 0x18 :=
  ⟨by decide, by decide, by decide,
   (header_layout_round_trip format.general 3 0x1234 (by decide) (by decide) (by decide)).1,
   (header_layout_round_trip format.general 3 0x1234 (by decide) (by decide) (by decide)).2.1⟩

/-! ## Format detection -/

theorem from_le_four (b0 b1 b2 b3 : Byte) :
    from_le [b0, b1, b2, b3] = b0.val + 256 * (b1.val + 256 * (b2.val + 256 * b3.val)) := by
  simp [from_le]

theorem four_cc_bsa : make_four_cc ['B', 'S', 'A'] = 0x00415342 := by decide

theorem four_cc_btdx : make_four_cc ['B', 'T', 'D', 'X'] = 0x58445442 := by decide

theorem from_le_four_eq_iff (b0 b1 b2 b3 c0 c1 c2 c3 : Byte) :
    from_le [b0, b1, b2, b3] = from_le [c0, c1, c2, c3] ↔
      [b0, b1, b2, b3] = [c0, c1, c2, c3] := by
  rw [from_le_four, from_le_four]
  have h0 := b0.isLt
  have h1 := b1.isLt
  have h2 := b2.isLt
  have h3 := b3.isLt
  have g0 := c0.isLt
  have g1 := c1.isLt
  have g2 := c2.isLt
  have g3 := c3.isLt
  constructor
  · intro h
    have e0 : b0.val = c0.val := by omega
    have e1 : b1.val = c1.val := by omega
    have e2 : b2.val = c2.val := by omega
    have e3 : b3.val = c3.val := by omega
    rw [Fin.ext e0, Fin.ext e1, Fin.ext e2, Fin.ext e3]
  · intro h
    simp only [List.cons.injEq, and_true] at h
    obtain ⟨e0, e1, e2, e3⟩ := h
    rw [e0, e1, e2, e3]

theorem guess_stream_four (b0 b1 b2 b3 : Byte) (rest : List Byte) :
    guess_file_format (b0 :: b1 :: b2 :: b3 :: rest) =
      .ok (if [b0, b1, b2, b3] = [0x00, 0x01, 0x00, 0x00] then some file_format.tes3
           else if [b0, b1, b2, b3] = [0x42, 0x53, 0x41, 0x00] then some file_format.tes4
           else if [b0, b1, b2, b3] = [0x42, 0x54, 0x44, 0x58] then some file_format.fo4
           else none) := by
  have e := read_uint_ok { data := b0 :: b1 :: b2 :: b3 :: rest, pos := 0 } 4
    (by simp)
  have hs : le_at (b0 :: b1 :: b2 :: b3 :: rest) 0 4 = from_le [b0, b1, b2, b3] := rfl
  have k3 : (0x100 : Nat) = from_le [0x00, 0x01, 0x00, 0x00] := by decide
  have k4 : make_four_cc ['B', 'S', 'A'] = from_le [0x42, 0x53, 0x41, 0x00] := by decide
  have kf : make_four_cc ['B', 'T', 'D', 'X'] = from_le [0x42, 0x54, 0x44, 0x58] := by decide
  have i3 : from_le [b0, b1, b2, b3] = 0x100 ↔ [b0, b1, b2, b3] = [0x00, 0x01, 0x00, 0x00] := by
    have := from_le_four_eq_iff b0 b1 b2 b3 0x00 0x01 0x00 0x00
    rw [← k3] at this; exact this
  have i4 : from_le [b0, b1, b2, b3] = make_four_cc ['B', 'S', 'A'] ↔
      [b0, b1, b2, b3] = [0x42, 0x53, 0x41, 0x00] := by
    have := from_le_four_eq_iff b0 b1 b2 b3 0x42 0x53 0x41 0x00
    rw [← k4] at this; exact this
  have i5 : from_le [b0, b1, b2, b3] = make_four_cc ['B', 'T', 'D', 'X'] ↔
      [b0, b1, b2, b3] = [0x42, 0x54, 0x44, 0x58] := by
    have := from_le_four_eq_iff b0 b1 b2 b3 0x42 0x54 0x44 0x58
    rw [← kf] at this; exact this
  simp only [guess_file_format, guess_file_format.stream, e, hs, bind, Except.bind, pure,
    Except.pure, i3, i4, i5]
  split_ifs <;> rfl

/-- C10. Format detection: on a byte source of at least 4 bytes, `guess_file_format` returns
tes3 exactly when the first four bytes are `00 01 00 00`, tes4 exactly when they are
`'B','S','A',00`, fo4 exactly when they are `'B','T','D','X'`, and no format otherwise; the
result is a function of the first four bytes alone. -/
theorem guess_file_format_spec (src : List Byte) (h : 4 ≤ src.length) :
    guess_file_format src =
      .ok (if src.take 4 = [0x00, 0x01, 0x00, 0x00] then some file_format.tes3
           else if src.take 4 = [0x42, 0x53, 0x41, 0x00] then some file_format.tes4
           else if src.take 4 = [0x42, 0x54, 0x44, 0x58] then some file_format.fo4
           else none) := by
  match src, h with
  | b0 :: b1 :: b2 :: b3 :: rest, _ =>
    rw [guess_stream_four]
    rfl

/-- Witness for C10: a source that starts with `'B','T','D','X'` is detected as fo4. -/
theorem guess_file_format_spec_witness :
    4 ≤ [(0x42 : Byte), 0x54, 0x44, 0x58, 0x01, 0x00].length
      ∧ guess_file_format [0x42, 0x54, 0x44, 0x58, 0x01, 0x00] = .ok (some file_format.fo4) :=
  ⟨by decide, guess_file_format_spec [0x42, 0x54, 0x44, 0x58, 0x01, 0x00] (by decide)⟩

/-! ## Header validation in `archive::read` -/

/-- The two outcomes of `archive::read` on a source that holds a whole header. -/
theorem archive_read_some (self : archive) (B : List Byte) (hlen : 0x18 ≤ B.length) :
    archive.read self (some B) =
      if le_at B 0 4 ≠ constants.btdx ∨ le_at B 4 4 ≠ 1 then .ok (self, none)
      else
        match archive.read.loop (le_at B 12 4) (le_at B 8 4) self.clear
            { data := B, pos := 0x18 } (le_at B 16 8) with
        | .ok (a, _) => .ok (a, some (le_at B 8 4))
        | .error e => .error e := by
  simp only [archive.read, header_read_ok {} B hlen, bind, Except.bind, pure, Except.pure,
    header_t.good, header_t.archive_format, header_t.file_count, header_t.string_table_offset]
  by_cases hm : le_at B 0 4 = constants.btdx
  · by_cases hv : le_at B 4 4 = 1
    · simp only [hm, hv, ne_eq, not_true_eq_false, if_false, or_self, Bool.not_true]
      cases archive.read.loop (le_at B 12 4) (le_at B 8 4) (hashmap.clear self)
        { data := B, pos := 0x18 } (le_at B 16 8) with
      | error e => rfl
      | ok r => rfl
    · simp [hm, hv]
  · simp [hm]

theorem take_four_eq_magic_iff (B : List Byte) (hlen : 4 ≤ B.length) :
    le_at B 0 4 = constants.btdx ↔ B.take 4 = [0x42, 0x54, 0x44, 0x58] := by
  match B, hlen with
  | b0 :: b1 :: b2 :: b3 :: rest, _ =>
    have hs : le_at (b0 :: b1 :: b2 :: b3 :: rest) 0 4 = from_le [b0, b1, b2, b3] := rfl
    have ht : (b0 :: b1 :: b2 :: b3 :: rest).take 4 = [b0, b1, b2, b3] := rfl
    rw [hs, ht, ← magic_bytes]
    exact from_le_four_eq_iff _ _ _ _ _ _ _ _

/-- C7. Header validation: on an input of at least `0x18` bytes, `archive::read` returns no
result if and only if the first four bytes are not `'B','T','D','X'` or the little-endian
`u32` at offset 4 is not 1; and whenever it returns a format, that format is the `u32` at
offset 8 of the input. -/
theorem read_header_validation (self : archive) (B : List Byte) (hlen : 0x18 ≤ B.length) :
    ((∃ a, archive.read self (some B) = .ok (a, none)) ↔
        (B.take 4 ≠ [0x42, 0x54, 0x44, 0x58] ∨ le_at B 4 4 ≠ 1))
      ∧ (∀ a f, archive.read self (some B) = .ok (a, some f) → f = le_at B 8 4) := by
  have hm := take_four_eq_magic_iff B (by omega)
  rw [archive_read_some self B hlen]
  by_cases hbad : le_at B 0 4 ≠ constants.btdx ∨ le_at B 4 4 ≠ 1
  · rw [if_pos hbad]
    refine ⟨⟨fun _ => ?_, fun _ => ⟨self, rfl⟩⟩, ?_⟩
    · rcases hbad with h | h
      · exact Or.inl (fun h4 => h (hm.mpr h4))
      · exact Or.inr h
    · intro a f h
      simp at h
  · rw [if_neg hbad]
    have hgood : ¬ (B.take 4 ≠ [0x42, 0x54, 0x44, 0x58] ∨ le_at B 4 4 ≠ 1) := by
      intro h
      apply hbad
      rcases h with h | h
      · exact Or.inl (fun h4 => h (hm.mp h4))
      · exact Or.inr h
    cases archive.read.loop (le_at B 12 4) (le_at B 8 4) (hashmap.clear self)
        { data := B, pos := 0x18 } (le_at B 16 8) with
    | error e =>
      refine ⟨⟨fun ⟨a, h⟩ => ?_, fun h => absurd h hgood⟩, ?_⟩
      · simp at h
      · intro a f h
        simp at h
    | ok r =>
      refine ⟨⟨fun ⟨a, h⟩ => ?_, fun h => absurd h hgood⟩, ?_⟩
      · simp at h
      · intro a f h
        simp at h
        exact h.2.symm

/-! ## Reading a chunk record -/

theorem restore_point_ok {α : Type} (a_in : istream_t)
    (body : istream_t → Except Fault (α × istream_t)) (a : α) (s : istream_t)
    (h : body a_in = .ok (a, s)) :
    restore_point a_in body = .ok (a, { data := s.data, pos := a_in.pos }) := by
  simp [restore_point, h, istream_t.seek_absolute, istream_t.tell]

/-- What `chunk::read` does on a record that lies inside the source and whose data range
lies inside the source. -/
theorem chunk_read_ok (self : chunk) (data : List Byte) (p : Nat) (fmt : format)
    (hrec : p + (if fmt = format.directx then 0x18 else 0x14) ≤ data.length)
    (hdata : le_at data p 8 +
        (if le_at data (p + 8) 4 ≠ 0 then le_at data (p + 8) 4 else le_at data (p + 12) 4)
        ≤ data.length) :
    chunk.read self { data := data, pos := p } fmt =
      .ok ({ data := slice data (le_at data p 8)
                (if le_at data (p + 8) 4 ≠ 0 then le_at data (p + 8) 4
                 else le_at data (p + 12) 4),
             decompsz := if le_at data (p + 8) 4 ≠ 0 then some (le_at data (p + 12) 4)
                         else none,
             mips := if fmt = format.directx then
                       { first := le_at data (p + 16) 2, last := le_at data (p + 18) 2 }
                     else self.mips },
           { data := data,
             pos := p + (if fmt = format.directx then 0x18 else 0x14) }) := by
  have hrec' : p + 0x14 ≤ data.length := by
    split_ifs at hrec <;> omega
  have e1 := read_uint_ok { data := data, pos := p } 8 (by simp; omega)
  have e2 := read_uint_ok { data := data, pos := p + 8 } 4 (by simp; omega)
  have e3 := read_uint_ok { data := data, pos := p + 8 + 4 } 4 (by simp; omega)
  have a12 : p + 8 + 4 = p + 12 := by omega
  have eb := read_bytes_ok { data := data, pos := le_at data p 8 }
    (if le_at data (p + 8) 4 ≠ 0 then le_at data (p + 8) 4 else le_at data (p + 12) 4) hdata
  by_cases hf : fmt = format.directx
  · rw [if_pos hf] at hrec
    have m1 := read_uint_ok { data := data, pos := p + 8 + 4 + 4 } 2 (by simp; omega)
    have m2 := read_uint_ok { data := data, pos := p + 8 + 4 + 4 + 2 } 2 (by simp; omega)
    have e4 := read_uint_ok { data := data, pos := p + 8 + 4 + 4 + 2 + 2 } 4 (by simp; omega)
    have a16 : p + 8 + 4 + 4 = p + 16 := by omega
    have a18 : p + 8 + 4 + 4 + 2 = p + 18 := by omega
    have a24 : p + 8 + 4 + 4 + 2 + 2 + 4 = p + 0x18 := by omega
    simp only [chunk.read, chunk.mips_t.read, e1, e2, e3, e4, m1, m2, bind, Except.bind, pure,
      Except.pure, if_pos hf, restore_point, istream_t.seek_absolute, istream_t.tell, eb,
      chunk.set_data, compressed_byte_container.set_data, a12, a16, a18, a24]
  · rw [if_neg hf] at hrec
    have e4 := read_uint_ok { data := data, pos := p + 8 + 4 + 4 } 4 (by simp; omega)
    have a20 : p + 8 + 4 + 4 + 4 = p + 0x14 := by omega
    simp only [chunk.read, e1, e2, e3, e4, bind, Except.bind, pure,
      Except.pure, if_neg hf, restore_point, istream_t.seek_absolute, istream_t.tell, eb,
      chunk.set_data, compressed_byte_container.set_data, a12, a20]

/-- C3. Lazy-decompression read protocol of `chunk::read`: for a chunk record at the cursor
that lies inside the source, with fields `dataOffset`, `compressedSize`, `decompressedSize`
and its data range inside the source, the read completes; if `compressedSize` is nonzero the
chunk is compressed, its decompressed size is `decompressedSize`, and its `size()` and bytes
are the `compressedSize` stored bytes at `dataOffset`; if `compressedSize` is zero the chunk
is not compressed, has no decompressed-size tag, and its bytes are the `decompressedSize`
bytes at `dataOffset`. -/
theorem chunk_read_lazy (self : chunk) (data : List Byte) (p : Nat) (fmt : format)
    (hrec : p + (if fmt = format.directx then 0x18 else 0x14) ≤ data.length)
    (hdata : le_at data p 8 +
        (if le_at data (p + 8) 4 ≠ 0 then le_at data (p + 8) 4 else le_at data (p + 12) 4)
        ≤ data.length) :
    ∃ c s, chunk.read self { data := data, pos := p } fmt = .ok (c, s)
      ∧ (le_at data (p + 8) 4 ≠ 0 →
          c.compressed = true ∧ c.decompsz = some (le_at data (p + 12) 4)
          ∧ c.decompressed_size = le_at data (p + 12) 4
          ∧ c.size = le_at data (p + 8) 4
          ∧ c.as_bytes = slice data (le_at data p 8) (le_at data (p + 8) 4))
      ∧ (le_at data (p + 8) 4 = 0 →
          c.compressed = false ∧ c.decompsz = none
          ∧ c.size = le_at data (p + 12) 4
          ∧ c.as_bytes = slice data (le_at data p 8) (le_at data (p + 12) 4)) := by
  refine ⟨_, _, chunk_read_ok self data p fmt hrec hdata, ?_, ?_⟩
  · intro hc
    rw [if_pos hc] at hdata
    simp only [chunk.compressed, chunk.decompressed_size, chunk.size, chunk.as_bytes,
      compressed_byte_container.compressed, compressed_byte_container.decompressed_size,
      compressed_byte_container.size, compressed_byte_container.as_bytes, if_pos hc,
      Option.isSome_some, slice_length _ _ _ hdata, and_self]
  · intro hc
    have hn : ¬ (le_at data (p + 8) 4 ≠ 0) := fun h => h hc
    rw [if_neg hn] at hdata
    simp only [chunk.compressed, chunk.size, chunk.as_bytes,
      compressed_byte_container.compressed,
      compressed_byte_container.size, compressed_byte_container.as_bytes, if_neg hn,
      Option.isSome_none, slice_length _ _ _ hdata, and_self]

/-- Witness for C3: the chunk record at offset `0x28` of the scenario bytes, whose data are
at `0x3C`. -/
theorem chunk_read_lazy_witness :
    0x28 + (if format.general = format.directx then 0x18 else 0x14)
        ≤ (scenario_bytes 0x3C).length
    ∧ le_at (scenario_bytes 0x3C) 0x28 8 +
        (if le_at (scenario_bytes 0x3C) (0x28 + 8) 4 ≠ 0
          then le_at (scenario_bytes 0x3C) (0x28 + 8) 4
          else le_at (scenario_bytes 0x3C) (0x28 + 12) 4)
        ≤ (scenario_bytes 0x3C).length
    ∧ ∃ c s, chunk.read {} { data := scenario_bytes 0x3C, pos := 0x28 } format.general
        = .ok (c, s)
      ∧ (le_at (scenario_bytes 0x3C) (0x28 + 8) 4 ≠ 0 →
          c.compressed = true ∧ c.decompsz = some (le_at (scenario_bytes 0x3C) (0x28 + 12) 4)
          ∧ c.decompressed_size = le_at (scenario_bytes 0x3C) (0x28 + 12) 4
          ∧ c.size = le_at (scenario_bytes 0x3C) (0x28 + 8) 4
          ∧ c.as_bytes = slice (scenario_bytes 0x3C) (le_at (scenario_bytes 0x3C) 0x28 8)
              (le_at (scenario_bytes 0x3C) (0x28 + 8) 4))
      ∧ (le_at (scenario_bytes 0x3C) (0x28 + 8) 4 = 0 →
          c.compressed = false ∧ c.decompsz = none
          ∧ c.size = le_at (scenario_bytes 0x3C) (0x28 + 12) 4
          ∧ c.as_bytes = slice (scenario_bytes 0x3C) (le_at (scenario_bytes 0x3C) 0x28 8)
              (le_at (scenario_bytes 0x3C) (0x28 + 12) 4)) :=
  ⟨by decide, by decide,
    chunk_read_lazy {} (scenario_bytes 0x3C) 0x28 format.general (by decide) (by decide)⟩

/-- Witness for C7: the scenario bytes, whose header is valid. -/
theorem read_header_validation_witness :
    0x18 ≤ (scenario_bytes 0x3C).length
    ∧ ((∃ a, archive.read {} (some (scenario_bytes 0x3C)) = .ok (a, none)) ↔
        ((scenario_bytes 0x3C).take 4 ≠ [0x42, 0x54, 0x44, 0x58]
          ∨ le_at (scenario_bytes 0x3C) 4 4 ≠ 1))
      ∧ (∀ a f, archive.read {} (some (scenario_bytes 0x3C)) = .ok (a, some f) →
          f = le_at (scenario_bytes 0x3C) 8 4) :=
  ⟨by decide, read_header_validation {} (scenario_bytes 0x3C) (by decide)⟩

/-! ## Failed reads -/

/-- Counterexample to C6 as stated: an archive that holds one file is asked to read a source
whose header has a wrong magic; the read returns no result and the archive still holds its
file, so it is not in its empty state. -/
theorem read_bad_magic_keeps_entries :
    archive.read (single_file_index [0xDE, 0xAD, 0xBE, 0xEF] none) (some zero_header)
        = .ok (single_file_index [0xDE, 0xAD, 0xBE, 0xEF] none, none)
      ∧ single_file_index [0xDE, 0xAD, 0xBE, 0xEF] none ≠ {} := by
  decide

/-- C6, amended. When the header is rejected (wrong magic or unsupported version, the
`0x18` header bytes being there) or the source cannot be opened, `archive::read` returns no
result and leaves the archive as it was, previous entries included. The archive is cleared
once the header has been accepted: from there on the outcome of the read does not depend on
what the archive held before. -/
theorem read_rejected_header_unchanged (self : archive) (B : List Byte)
    (hlen : 0x18 ≤ B.length) :
    archive.read self none = .ok (self, none)
      ∧ ((B.take 4 ≠ [0x42, 0x54, 0x44, 0x58] ∨ le_at B 4 4 ≠ 1) →
          archive.read self (some B) = .ok (self, none))
      ∧ (¬ (B.take 4 ≠ [0x42, 0x54, 0x44, 0x58] ∨ le_at B 4 4 ≠ 1) →
          archive.read self (some B) = archive.read {} (some B)) := by
  have hm := take_four_eq_magic_iff B (by omega)
  refine ⟨rfl, ?_, ?_⟩
  · intro hbad
    rw [archive_read_some self B hlen, if_pos]
    rcases hbad with h | h
    · exact Or.inl (fun h4 => h (hm.mp h4))
    · exact Or.inr h
  · intro hgood
    have hg : ¬ (le_at B 0 4 ≠ constants.btdx ∨ le_at B 4 4 ≠ 1) := by
      intro h
      apply hgood
      rcases h with h | h
      · exact Or.inl (fun h4 => h (hm.mpr h4))
      · exact Or.inr h
    rw [archive_read_some self B hlen, archive_read_some {} B hlen, if_neg hg, if_neg hg]
    rfl

/-- Witness for C6, amended: the zero header, read into an archive that holds one file. -/
theorem read_rejected_header_unchanged_witness :
    0x18 ≤ zero_header.length
    ∧ archive.read (single_file_index foo none) none = .ok (single_file_index foo none, none)
      ∧ ((zero_header.take 4 ≠ [0x42, 0x54, 0x44, 0x58] ∨ le_at zero_header 4 4 ≠ 1) →
          archive.read (single_file_index foo none) (some zero_header)
            = .ok (single_file_index foo none, none))
      ∧ (¬ (zero_header.take 4 ≠ [0x42, 0x54, 0x44, 0x58] ∨ le_at zero_header 4 4 ≠ 1) →
          archive.read (single_file_index foo none) (some zero_header)
            = archive.read {} (some zero_header)) :=
  ⟨by decide,
    read_rejected_header_unchanged (single_file_index foo none) zero_header (by decide)⟩

/-! ## The concrete scenario -/

theorem to_le_from_le (l : List Byte) : to_le l.length (from_le l) = l := by
  induction l with
  | nil => rfl
  | cons b l ih =>
    have hb := b.isLt
    have h1 : (b.val + 256 * from_le l) % 256 = b.val := by omega
    have h2 : (b.val + 256 * from_le l) / 256 = from_le l := by omega
    simp only [List.length_cons, to_le, from_le, h2, ih]
    congr 1
    exact Fin.ext h1

/-- A chunk record at `0x28` whose `dataOffset` field holds `0x2C` points into itself: the
four bytes at `0x2C` are the upper half of that field, and they are zero, whatever the rest
of the source holds. -/
theorem data_offset_into_own_record (B : List Byte) (hlen : 0x30 ≤ B.length)
    (h : le_at B 0x28 8 = 0x2C) : slice B 0x2C 4 = [0x00, 0x00, 0x00, 0x00] := by
  have hl : (slice B 0x28 8).length = 8 := slice_length B 0x28 8 (by omega)
  have hs : slice B 0x28 8 = to_le 8 0x2C := by
    have := to_le_from_le (slice B 0x28 8)
    rw [hl] at this
    rw [← this]
    exact congrArg (to_le 8) h
  have hd : slice B 0x2C 4 = (slice B 0x28 8).drop 4 := by
    simp only [slice, List.drop_take, List.drop_drop]
  rw [hd, hs]
  decide

/-- Counterexample to C9 as stated: with `dataOffset = 0x18 + 0x14` the read succeeds with
format general and one file `"foo"` of hash `{1,2,3}`, but the bytes of its chunk are
`00 00 00 00` (offset `0x2C` lies in the chunk record itself, in the upper half of its
`dataOffset` field), not `DE AD BE EF`. -/
theorem scenario_stated_offset_reads_zeros :
    archive.read {} (some (scenario_bytes (0x18 + 0x14)))
        = .ok (single_file_index [0x00, 0x00, 0x00, 0x00] none, some format.general)
      ∧ single_file_index [0x00, 0x00, 0x00, 0x00] none
          ≠ single_file_index [0xDE, 0xAD, 0xBE, 0xEF] none := by
  decide

/-- C9, amended. With `dataOffset = 0x18 + 0x10 + 0x14` (after the header, the `0x10` bytes
of the file record and the `0x14` bytes of the chunk record) and the name at `0x40`, the read
of the scenario bytes succeeds with format general and yields a map of size 1 whose single
file has one chunk with bytes exactly `DE AD BE EF` and whose key has hash `{1,2,3}` and
name `"foo"`. -/
theorem scenario_reads_payload :
    archive.read {} (some (scenario_bytes (0x18 + 0x10 + 0x14)))
        = .ok (single_file_index [0xDE, 0xAD, 0xBE, 0xEF] none, some format.general)
      ∧ (single_file_index [0xDE, 0xAD, 0xBE, 0xEF] none).size = 1
      ∧ (single_file_index [0xDE, 0xAD, 0xBE, 0xEF] none).entries.map
          (fun e => (e.1.hash, e.1.name, e.2._chunks.map chunk.as_bytes))
          = [({ file := 1, ext := 2, dir := 3 }, foo, [[0xDE, 0xAD, 0xBE, 0xEF]])] := by
  decide

/-! ## Writing compressed chunks and texture archives -/

/-- C2 at the failing input: for a compressed chunk with 2 stored bytes and decompressed size
5, `chunk::write` puts 5 in the `compressedSize` field and 2 in the `decompressedSize`
field. -/
theorem chunk_write_swaps_sizes :
    (chunk.write { data := [0xAA, 0xBB], decompsz := some 5, mips := {} } []
        format.general 0x3C).1
      = to_le 8 0x3C ++ to_le 4 5 ++ to_le 4 2 ++ to_le 4 0xBAADF00D := by
  decide

/-- C1 at the failing input: the index read from `compressed_bytes` (one chunk, 2 stored
bytes, decompressed size 5) is written with the two size fields exchanged, and reading the
written bytes back gives a chunk of 5 stored bytes with decompressed size 2. -/
theorem round_trip_breaks_compressed_chunk :
    archive.read {} (some compressed_bytes)
        = .ok (single_file_index [0xAA, 0xBB] (some 5), some format.general)
      ∧ archive.write (single_file_index [0xAA, 0xBB] (some 5)) true format.general
        = .ok (true, rewritten_bytes)
      ∧ archive.read {} (some rewritten_bytes)
        = .ok (single_file_index [0xAA, 0xBB, 0x03, 0x00, 0x66] (some 2), some format.general)
      ∧ single_file_index [0xAA, 0xBB, 0x03, 0x00, 0x66] (some 2)
          ≠ single_file_index [0xAA, 0xBB] (some 5) := by
  decide

/-- C4 at the failing input: writing an archive that holds a file in the directx format
runs from the `directx` case of `file::write_chunk` into `declare_unreachable()`; no name
table is written. -/
theorem write_directx_reaches_unreachable :
    archive.write (single_file_index [0xDE, 0xAD, 0xBE, 0xEF] none) true format.directx
      = .error .unreachable := by
  decide

/-! ## The layout of a written general archive -/

theorem general_ne_directx : format.general ≠ format.directx := by decide

/-- What `chunk::write` emits, for any format: the running offset, then
`compressed() ? decompressed_size() : 0`, then `size()`, then the mip range for directx
only, then the sentinel; the running offset advances by `size()`. -/
theorem chunk_write_layout (c : chunk) (o : ostream_t) (fmt : format) (d : Nat) :
    c.write o fmt d =
      (o ++ to_le 8 d
          ++ to_le 4 ((if c.compressed then c.decompressed_size else 0) % 2 ^ 32)
          ++ to_le 4 (c.size % 2 ^ 32)
          ++ (if fmt = format.directx then to_le 2 c.mips.first ++ to_le 2 c.mips.last
              else [])
          ++ to_le 4 0xBAADF00D,
       (d + c.size) % 2 ^ 64) := by
  by_cases hf : fmt = format.directx
  · simp only [chunk.write, chunk.mips_t.write, ostream_t.write_uint, if_pos hf,
      List.append_assoc]
  · simp only [chunk.write, ostream_t.write_uint, if_neg hf, List.append_assoc,
      List.nil_append]

theorem chunk_write_general (c : chunk) (o : ostream_t) (d : Nat) :
    c.write o format.general d =
      (o ++ (to_le 8 d
          ++ (to_le 4 ((if c.compressed then c.decompressed_size else 0) % 2 ^ 32)
          ++ (to_le 4 (c.size % 2 ^ 32) ++ to_le 4 0xBAADF00D))),
       (d + c.size) % 2 ^ 64) := by
  simp only [chunk.write, ostream_t.write_uint, if_neg general_ne_directx,
    List.append_assoc]

theorem blob_chunks_append (cs : List chunk) (o : ostream_t) :
    cs.foldl (fun o c => ostream_t.write_bytes o c.as_bytes) o =
      o ++ cs.foldl (fun o c => ostream_t.write_bytes o c.as_bytes) [] := by
  induction cs generalizing o with
  | nil => simp
  | cons c cs ih =>
    simp only [List.foldl_cons]
    rw [ih (ostream_t.write_bytes o c.as_bytes), ih (ostream_t.write_bytes [] c.as_bytes)]
    simp only [ostream_t.write_bytes, List.nil_append, List.append_assoc]

theorem blob_chunks_length (cs : List chunk) :
    (cs.foldl (fun o c => ostream_t.write_bytes o c.as_bytes) []).length
      = (cs.map chunk.size).sum := by
  induction cs with
  | nil => rfl
  | cons c cs ih =>
    simp only [List.foldl_cons, List.map_cons, List.sum_cons]
    rw [blob_chunks_append, List.length_append, ih]
    rfl

theorem blob_append (files : List (file.key × file)) (o : ostream_t) :
    archive.write.blob files o = o ++ archive.write.blob files [] := by
  induction files generalizing o with
  | nil => simp [archive.write.blob]
  | cons e rest ih =>
    obtain ⟨k, f⟩ := e
    simp only [archive.write.blob]
    rw [ih, blob_chunks_append f._chunks o,
      ih (List.foldl (fun o c => ostream_t.write_bytes o c.as_bytes) [] f._chunks),
      List.append_assoc]

theorem blob_length (files : List (file.key × file)) :
    (archive.write.blob files []).length = data_size files := by
  induction files with
  | nil => rfl
  | cons e rest ih =>
    obtain ⟨k, f⟩ := e
    simp only [archive.write.blob, data_size, List.map_cons, List.sum_cons]
    rw [blob_append, List.length_append, ih, blob_chunks_length]
    rfl

theorem names_append (files : List (file.key × file)) (o : ostream_t) :
    archive.write.names files o = o ++ name_table files := by
  induction files generalizing o with
  | nil => simp [archive.write.names, name_table]
  | cons e rest ih =>
    obtain ⟨k, f⟩ := e
    have hle : to_le 2 (k.name.length % 2 ^ 16) = to_le 2 k.name.length := by
      simp [to_le]
      omega
    simp only [archive.write.names, name_table, ostream_t.write_uint, ostream_t.write_bytes]
    rw [ih, hle]
    simp only [List.append_assoc]

theorem slice_of_eq (out pre bs post : List Byte) (k n : Nat)
    (h : out = pre ++ bs ++ post) (hk : k = pre.length) (hn : n = bs.length) :
    slice out k n = bs := by
  subst h hk hn
  exact slice_append_mid pre bs post

theorem le_at_of_eq (out pre post : List Byte) (k w x : Nat)
    (h : out = pre ++ to_le w x ++ post) (hk : k = pre.length) (hx : x < 256 ^ w) :
    le_at out k w = x := by
  subst h hk
  rw [le_at_append_mid pre (to_le w x) post pre.length w rfl (to_le_length w x).symm,
    from_le_to_le, Nat.mod_eq_of_lt hx]

/-- The chunk loop of `file::write_chunk` for the general format: it appends one record of
`0x14` bytes per chunk, and in any output that holds these records at `pre.length` and the
chunk bytes from `d` on, every record points at its chunk. -/
theorem write_chunk_loop_general (cs : List chunk) :
    ∀ (o : ostream_t) (d : Nat), d < 2 ^ 64 →
      ∃ R : List Byte,
        file.write_chunk.loop cs o format.general d
            = (o ++ R, (d + (cs.map chunk.size).sum) % 2 ^ 64)
          ∧ R.length = 0x14 * cs.length
          ∧ ∀ (out pre mid rest : List Byte),
              out = pre ++ R ++ mid
                ++ cs.foldl (fun o c => ostream_t.write_bytes o c.as_bytes) [] ++ rest →
              d = pre.length + R.length + mid.length →
              d + (cs.map chunk.size).sum < 2 ^ 64 →
              chunks_laid_out out 0x14 cs pre.length d = true := by
  induction cs with
  | nil =>
    intro o d hd
    refine ⟨[], ?_, rfl, ?_⟩
    · simp only [file.write_chunk.loop, List.map_nil, List.sum_nil, Nat.add_zero,
        List.append_nil, Nat.mod_eq_of_lt hd]
    · intros; rfl
  | cons c cs ih =>
    intro o d hd
    have hd1 : (d + c.size) % 2 ^ 64 < 2 ^ 64 := Nat.mod_lt _ (by decide)
    obtain ⟨R1, hloop, hlen, hlay⟩ := ih
      (o ++ (to_le 8 d
          ++ (to_le 4 ((if c.compressed then c.decompressed_size else 0) % 2 ^ 32)
          ++ (to_le 4 (c.size % 2 ^ 32) ++ to_le 4 0xBAADF00D))))
      ((d + c.size) % 2 ^ 64) hd1
    refine ⟨(to_le 8 d
          ++ (to_le 4 ((if c.compressed then c.decompressed_size else 0) % 2 ^ 32)
          ++ (to_le 4 (c.size % 2 ^ 32) ++ to_le 4 0xBAADF00D))) ++ R1, ?_, ?_, ?_⟩
    · simp only [file.write_chunk.loop, chunk_write_general, hloop, List.map_cons,
        List.sum_cons, List.append_assoc, Nat.mod_add_mod, Nat.add_assoc]
    · simp only [List.length_append, to_le_length, hlen, List.length_cons]
      omega
    · intro out pre mid rest hout hd0 hsum
      simp only [List.map_cons, List.sum_cons] at hsum
      have hlenR : ((to_le 8 d
          ++ (to_le 4 ((if c.compressed then c.decompressed_size else 0) % 2 ^ 32)
          ++ (to_le 4 (c.size % 2 ^ 32) ++ to_le 4 0xBAADF00D))) ++ R1).length
            = 0x14 + R1.length := by
        simp only [List.length_append, to_le_length]
      rw [hlenR] at hd0
      have hblob : (c :: cs).foldl (fun o c => ostream_t.write_bytes o c.as_bytes) []
          = c.as_bytes ++ cs.foldl (fun o c => ostream_t.write_bytes o c.as_bytes) [] := by
        simp only [List.foldl_cons]
        rw [blob_chunks_append]
        rfl
      rw [hblob] at hout
      have hcs : c.as_bytes.length = c.size := rfl
      have h1 : le_at out pre.length 8 = d := by
        apply le_at_of_eq out pre
          ((to_le 4 ((if c.compressed then c.decompressed_size else 0) % 2 ^ 32)
            ++ (to_le 4 (c.size % 2 ^ 32) ++ to_le 4 0xBAADF00D)) ++ R1 ++ mid
            ++ (c.as_bytes ++ cs.foldl (fun o c => ostream_t.write_bytes o c.as_bytes) [])
            ++ rest) pre.length 8 d _ rfl (by omega)
        rw [hout]
        simp only [List.append_assoc]
      have h2 : slice out d c.size = c.as_bytes := by
        apply slice_of_eq out
          (pre ++ (to_le 8 d
            ++ (to_le 4 ((if c.compressed then c.decompressed_size else 0) % 2 ^ 32)
            ++ (to_le 4 (c.size % 2 ^ 32) ++ to_le 4 0xBAADF00D))) ++ R1 ++ mid)
          c.as_bytes
          (cs.foldl (fun o c => ostream_t.write_bytes o c.as_bytes) [] ++ rest) d c.size
        · rw [hout]
          simp only [List.append_assoc]
        · simp only [List.length_append, to_le_length]
          omega
        · rfl
      have h3 := hlay out
        (pre ++ (to_le 8 d
            ++ (to_le 4 ((if c.compressed then c.decompressed_size else 0) % 2 ^ 32)
            ++ (to_le 4 (c.size % 2 ^ 32) ++ to_le 4 0xBAADF00D))))
        (mid ++ c.as_bytes) rest
        (by rw [hout]; simp only [List.append_assoc])
        (by
          rw [Nat.mod_eq_of_lt (by omega)]
          simp only [List.length_append, to_le_length, hcs]
          omega)
        (by rw [Nat.mod_eq_of_lt (by omega)]; omega)
      have hpre : (pre ++ (to_le 8 d
            ++ (to_le 4 ((if c.compressed then c.decompressed_size else 0) % 2 ^ 32)
            ++ (to_le 4 (c.size % 2 ^ 32) ++ to_le 4 0xBAADF00D)))).length
            = pre.length + 0x14 := by
        simp only [List.length_append, to_le_length]
      rw [hpre, Nat.mod_eq_of_lt (by omega)] at h3
      simp only [chunks_laid_out, h1, h2, h3, decide_True, Bool.and_self]

theorem hash_write_append (h : hashing.hash) (o : ostream_t) :
    ∃ H : List Byte, H.length = 12 ∧ h.write o = o ++ H := by
  refine ⟨to_le 4 h.file ++ (to_le 4 h.ext ++ to_le 4 h.dir), ?_, ?_⟩
  · simp only [List.length_append, to_le_length]
  · simp only [hashing.hash.write, ostream_t.write_uint, List.append_assoc]

theorem write_chunk_general (f : file) (o : ostream_t) (d : Nat) :
    ∃ H : List Byte, H.length = 4
      ∧ f.write_chunk o format.general d
          = .ok (file.write_chunk.loop f._chunks (o ++ H) format.general d) := by
  refine ⟨to_le 1 0 ++ (to_le 1 (f.size % 2 ^ 8)
      ++ to_le 2 (constants.chunk_header_size_gnrl % 2 ^ 16)), ?_, ?_⟩
  · simp only [List.length_append, to_le_length]
  · simp only [file.write_chunk, ostream_t.write_uint, if_pos, bind, Except.bind, pure,
      Except.pure, List.append_assoc]

theorem records_size_cons (fmt : format) (e : file.key × file)
    (rest : List (file.key × file)) :
    records_size fmt (e :: rest)
      = file_record_size fmt + chunk_record_size fmt * e.2.size + records_size fmt rest := by
  simp only [records_size, List.map_cons, List.sum_cons]

theorem data_size_cons (e : file.key × file) (rest : List (file.key × file)) :
    data_size (e :: rest) = e.2.stored_size + data_size rest := by
  simp only [data_size, List.map_cons, List.sum_cons]

theorem file_record_size_general : file_record_size format.general = 0x10 := by decide

theorem chunk_record_size_general : chunk_record_size format.general = 0x14 := by decide

/-- The record loop of `archive::write` for the general format: it appends the file and
chunk records, and in any output that holds these records at `pre.length` and the chunk
bytes from `d` on, every chunk record points at its chunk. -/
theorem write_records_general (files : List (file.key × file)) :
    ∀ (o : ostream_t) (d : Nat), d < 2 ^ 64 →
      ∃ R : List Byte,
        archive.write.records files o format.general d
            = .ok (o ++ R, (d + data_size files) % 2 ^ 64)
          ∧ R.length = records_size format.general files
          ∧ ∀ (out pre mid rest : List Byte),
              out = pre ++ R ++ mid ++ archive.write.blob files [] ++ rest →
              d = pre.length + R.length + mid.length →
              d + data_size files < 2 ^ 64 →
              files_laid_out out 0x10 0x14 files pre.length d = true := by
  induction files with
  | nil =>
    intro o d hd
    refine ⟨[], ?_, rfl, ?_⟩
    · simp only [archive.write.records, data_size, List.map_nil, List.sum_nil, Nat.add_zero,
        List.append_nil, Nat.mod_eq_of_lt hd, pure, Except.pure]
    · intros; rfl
  | cons e files ih =>
    obtain ⟨k, f⟩ := e
    intro o d hd
    obtain ⟨H1, hH1, hhash⟩ := hash_write_append k.hash o
    obtain ⟨H2, hH2, hwc⟩ := write_chunk_general f (o ++ H1) d
    obtain ⟨Rc, hloop, hRc, hlayc⟩ := write_chunk_loop_general f._chunks (o ++ H1 ++ H2) d hd
    have hd1 : (d + (f._chunks.map chunk.size).sum) % 2 ^ 64 < 2 ^ 64 :=
      Nat.mod_lt _ (by decide)
    obtain ⟨R1, hrec, hR1, hlay⟩ := ih (o ++ H1 ++ H2 ++ Rc)
      ((d + (f._chunks.map chunk.size).sum) % 2 ^ 64) hd1
    refine ⟨H1 ++ H2 ++ Rc ++ R1, ?_, ?_, ?_⟩
    · simp only [archive.write.records, hhash, hwc, hloop, hrec, bind, Except.bind,
        data_size_cons, file.stored_size]
      simp only [List.append_assoc, Nat.mod_add_mod, Nat.add_assoc]
    · rw [records_size_cons, file_record_size_general, chunk_record_size_general]
      simp only [List.length_append, hH1, hH2, hRc, hR1, file.size]
    · intro out pre mid rest hout hd0 hsum
      rw [data_size_cons] at hsum
      simp only [file.stored_size] at hsum
      have hblob : archive.write.blob ((k, f) :: files) []
          = f._chunks.foldl (fun o c => ostream_t.write_bytes o c.as_bytes) []
            ++ archive.write.blob files [] := by
        simp only [archive.write.blob]
        rw [blob_append]
      rw [hblob] at hout
      simp only [List.length_append, hH1, hH2] at hd0
      have hbl := blob_chunks_length f._chunks
      have h1 := hlayc out (pre ++ H1 ++ H2) (R1 ++ mid) (archive.write.blob files [] ++ rest)
        (by rw [hout]; simp only [List.append_assoc])
        (by simp only [List.length_append, hH1, hH2]; omega)
        (by omega)
      have h2 := hlay out (pre ++ H1 ++ H2 ++ Rc)
        (mid ++ f._chunks.foldl (fun o c => ostream_t.write_bytes o c.as_bytes) []) rest
        (by rw [hout]; simp only [List.append_assoc])
        (by
          rw [Nat.mod_eq_of_lt (by omega)]
          simp only [List.length_append, hH1, hH2, hbl]
          omega)
        (by rw [Nat.mod_eq_of_lt (by omega)]; omega)
      have hp1 : (pre ++ H1 ++ H2).length = pre.length + 0x10 := by
        simp only [List.length_append, hH1, hH2]
      have hp2 : (pre ++ H1 ++ H2 ++ Rc).length = pre.length + 0x10 + 0x14 * f.size := by
        simp only [List.length_append, hH1, hH2, hRc, file.size]
      rw [hp1] at h1
      rw [hp2, Nat.mod_eq_of_lt (by omega)] at h2
      simp only [files_laid_out, h1, file.stored_size, h2, Bool.and_self]

theorem foldl_size_mod (cs : List chunk) :
    ∀ s : Nat, s < 2 ^ 64 →
      cs.foldl (fun acc c => (acc + c.size) % 2 ^ 64) s
        = (s + (cs.map chunk.size).sum) % 2 ^ 64 := by
  induction cs with
  | nil =>
    intro s hs
    simp only [List.foldl_nil, List.map_nil, List.sum_nil, Nat.add_zero, Nat.mod_eq_of_lt hs]
  | cons c cs ih =>
    intro s _
    simp only [List.foldl_cons, List.map_cons, List.sum_cons]
    rw [ih _ (Nat.mod_lt _ (by decide)), Nat.mod_add_mod, Nat.add_assoc]

theorem make_header_loop_general (files : List (file.key × file)) :
    ∀ d s : Nat, d < 2 ^ 64 → s < 2 ^ 64 →
      archive.make_header.loop files format.general d s
        = .ok ((d + (files.map (fun e => 0x14 * e.2.size)).sum) % 2 ^ 64,
               (s + data_size files) % 2 ^ 64) := by
  induction files with
  | nil =>
    intro d s hd hs
    simp only [archive.make_header.loop, data_size, List.map_nil, List.sum_nil, Nat.add_zero,
      Nat.mod_eq_of_lt hd, Nat.mod_eq_of_lt hs, pure, Except.pure]
  | cons e files ih =>
    obtain ⟨k, f⟩ := e
    intro d s _ hs
    simp only [archive.make_header.loop, archive.make_header.inspect, if_pos, bind,
      Except.bind, pure, Except.pure]
    rw [ih _ _ (Nat.mod_lt _ (by decide))
      (by rw [foldl_size_mod _ _ hs]; exact Nat.mod_lt _ (by decide))]
    rw [foldl_size_mod _ _ hs, data_size_cons]
    simp only [List.map_cons, List.sum_cons, file.stored_size, Nat.add_mod_mod,
      Nat.mod_add_mod, Nat.add_assoc]
    rfl

theorem records_size_general (files : List (file.key × file)) :
    records_size format.general files
      = 0x10 * files.length + (files.map (fun e => 0x14 * e.2.size)).sum := by
  induction files with
  | nil => rfl
  | cons e files ih =>
    rw [records_size_cons, ih, file_record_size_general, chunk_record_size_general]
    simp only [List.length_cons, List.map_cons, List.sum_cons]
    omega

theorem make_header_general (a : archive) :
    a.make_header format.general
      = .ok (header_t.make format.general a.size
              (((0x18 + records_size format.general a.entries) % 2 ^ 64
                + data_size a.entries % 2 ^ 64) % 2 ^ 64),
             (0x18 + records_size format.general a.entries) % 2 ^ 64) := by
  simp only [archive.make_header, archive.make_header.inspect, if_pos, bind, Except.bind,
    pure, Except.pure]
  rw [make_header_loop_general _ _ _ (Nat.mod_lt _ (by decide)) (by decide)]
  have h : ((constants.header_size
        + constants.chunk_header_size_gnrl * hashmap.size a % 2 ^ 64) % 2 ^ 64
        + (a.entries.map (fun e => 0x14 * e.2.size)).sum) % 2 ^ 64
      = (0x18 + records_size format.general a.entries) % 2 ^ 64 := by
    rw [records_size_general]
    simp only [hashmap.size, constants.header_size, constants.chunk_header_size_gnrl,
      Nat.add_mod_mod, Nat.mod_add_mod, Nat.add_assoc]
  simp only [h, Nat.zero_add]

/-- The shape of what `archive::write` emits for the general format: the header, the
records, the chunk bytes, the name table. -/
theorem write_general_structure (a : archive) :
    ∃ R : List Byte,
      archive.write a true format.general
          = .ok (true,
              (header_t.make format.general a.size
                (((0x18 + records_size format.general a.entries) % 2 ^ 64
                  + data_size a.entries % 2 ^ 64) % 2 ^ 64)).write []
              ++ R ++ archive.write.blob a.entries [] ++ name_table a.entries)
        ∧ R.length = records_size format.general a.entries
        ∧ ∀ (out pre mid rest : List Byte),
            out = pre ++ R ++ mid ++ archive.write.blob a.entries [] ++ rest →
            (0x18 + records_size format.general a.entries) % 2 ^ 64
              = pre.length + R.length + mid.length →
            (0x18 + records_size format.general a.entries) % 2 ^ 64 + data_size a.entries
              < 2 ^ 64 →
            files_laid_out out 0x10 0x14 a.entries pre.length
              ((0x18 + records_size format.general a.entries) % 2 ^ 64) = true := by
  obtain ⟨R, hrec, hR, hlay⟩ := write_records_general a.entries
    ((header_t.make format.general a.size
        (((0x18 + records_size format.general a.entries) % 2 ^ 64
          + data_size a.entries % 2 ^ 64) % 2 ^ 64)).write [])
    ((0x18 + records_size format.general a.entries) % 2 ^ 64) (Nat.mod_lt _ (by decide))
  refine ⟨R, ?_, hR, hlay⟩
  simp only [archive.write, make_header_general, hrec, bind, Except.bind, pure, Except.pure,
    Bool.not_true, Bool.false_eq_true, if_false]
  rw [blob_append, names_append]

/-- A write that completes is a write in the general format or a write of no file: in any
other format the first file record runs into `declare_unreachable()`. -/
theorem write_ok_general_or_empty (a : archive) (fmt : format) (r : Bool × ostream_t)
    (h : archive.write a true fmt = .ok r) : fmt = format.general ∨ a.entries = [] := by
  by_contra hc
  rw [not_or] at hc
  obtain ⟨hf, he⟩ := hc
  obtain ⟨entries⟩ := a
  cases entries with
  | nil => exact he rfl
  | cons e es =>
    obtain ⟨k, f⟩ := e
    cases hmh : archive.make_header { entries := (k, f) :: es } fmt with
    | error e =>
      simp only [archive.write, hmh, bind, Except.bind, Bool.not_true, Bool.false_eq_true,
        if_false] at h
      cases h
    | ok p =>
      obtain ⟨hd, d⟩ := p
      by_cases hdx : fmt = format.directx
      · simp only [archive.write, hmh, archive.write.records, file.write_chunk, if_neg hf,
          if_pos hdx, declare_unreachable, bind, Except.bind, Bool.not_true,
          Bool.false_eq_true, if_false] at h
        cases h
      · simp only [archive.write, hmh, archive.write.records, file.write_chunk, if_neg hf,
          if_neg hdx, declare_unreachable, bind, Except.bind, Bool.not_true,
          Bool.false_eq_true, if_false] at h
        cases h

/-- Data offsets point at the data, for the writes that complete (the general format, or an
archive without files): in the output of a completed `archive::write` (of
fewer than `2^64` bytes), the file records start right after the `0x18`-byte header; the
`dataOffset` field of every chunk record is the absolute offset in the output at which the
stored bytes of that chunk begin; the first chunk's bytes begin immediately after the last
chunk record, and every further chunk's bytes begin where the previous chunk's bytes end, in
file insertion order and chunk order within a file. -/
theorem data_offsets_point_at_data (a : archive) (fmt : format) (r : Bool) (out : List Byte)
    (hw : archive.write a true fmt = .ok (r, out)) (hsize : out.length < 2 ^ 64) :
    files_laid_out out (file_record_size fmt) (chunk_record_size fmt) a.entries
      0x18 (0x18 + records_size fmt a.entries) = true := by
  rcases write_ok_general_or_empty a fmt (r, out) hw with hf | he
  · subst hf
    obtain ⟨R, hwr, hR, hlay⟩ := write_general_structure a
    rw [hwr] at hw
    have hout := (Prod.mk.inj (Except.ok.inj hw)).2
    have hlen := congrArg List.length hout
    simp only [List.length_append, header_write_length, List.length_nil, hR, blob_length]
      at hlen
    have hno : (0x18 + records_size format.general a.entries) % 2 ^ 64
        = 0x18 + records_size format.general a.entries :=
      Nat.mod_eq_of_lt (by omega)
    have h := hlay out
      ((header_t.make format.general a.size
          (((0x18 + records_size format.general a.entries) % 2 ^ 64
            + data_size a.entries % 2 ^ 64) % 2 ^ 64)).write [])
      [] (name_table a.entries)
      (by rw [← hout]; simp only [List.append_nil])
      (by
        rw [hno]
        simp only [header_write_length, List.length_nil, hR]
        omega)
      (by rw [hno]; omega)
    rw [hno] at h
    simp only [header_write_length, List.length_nil, Nat.zero_add] at h
    rw [file_record_size_general, chunk_record_size_general]
    exact h
  · rw [he]
    rfl

set_option maxRecDepth 100000 in
/-- The two-file index written in the general format: the hypotheses of
`data_offsets_point_at_data` hold there. -/
theorem data_offsets_point_at_data_witness :
    archive.write two_file_index true format.general = .ok (true, two_file_bytes)
      ∧ two_file_bytes.length < 2 ^ 64
      ∧ files_laid_out two_file_bytes (file_record_size format.general)
          (chunk_record_size format.general) two_file_index.entries
          0x18 (0x18 + records_size format.general two_file_index.entries) = true :=
  ⟨by decide, by decide,
    data_offsets_point_at_data two_file_index format.general true two_file_bytes
      (by decide) (by decide)⟩

theorem drop_of_length (l1 l2 : List Byte) (n : Nat) (h : l1.length = n) :
    (l1 ++ l2).drop n = l2 := by
  subst h
  exact List.drop_left l1 l2

theorem make_sto (f n x : Nat) : (header_t.make f n x)._stringTableOffset = x % 2 ^ 64 := rfl

theorem le_at_header_sto (h : header_t) (post : List Byte)
    (hlt : h._stringTableOffset < 2 ^ 64) :
    le_at (h.write [] ++ post) 0x10 8 = h._stringTableOffset := by
  rw [header_write_eq]
  apply le_at_of_eq _
    (to_le 4 constants.btdx ++ to_le 4 1 ++ to_le 4 h._format ++ to_le 4 h._fileCount) post
  · simp only [List.nil_append, List.append_assoc]
  · simp only [List.length_append, to_le_length]
  · exact hlt

/-- For the general format, the string-table offset stored in the header is the offset at
which the name table begins in the output: `0x18` plus the bytes of all records plus the
total stored size of all chunks; the names follow there in insertion order. -/
theorem general_string_table_offset (a : archive) (r : Bool) (out : List Byte)
    (hw : archive.write a true format.general = .ok (r, out)) (hsize : out.length < 2 ^ 64) :
    le_at out 0x10 8
        = 0x18 + records_size format.general a.entries + data_size a.entries
      ∧ out.drop (le_at out 0x10 8) = name_table a.entries := by
  obtain ⟨R, hwr, hR, _⟩ := write_general_structure a
  rw [hwr] at hw
  have hout := (Prod.mk.inj (Except.ok.inj hw)).2
  have hlen := congrArg List.length hout
  simp only [List.length_append, header_write_length, List.length_nil, hR, blob_length]
    at hlen
  have hno : ((0x18 + records_size format.general a.entries) % 2 ^ 64
        + data_size a.entries % 2 ^ 64) % 2 ^ 64
      = 0x18 + records_size format.general a.entries + data_size a.entries := by
    have e1 : (0x18 + records_size format.general a.entries) % 2 ^ 64
        = 0x18 + records_size format.general a.entries := Nat.mod_eq_of_lt (by omega)
    have e2 : data_size a.entries % 2 ^ 64 = data_size a.entries :=
      Nat.mod_eq_of_lt (by omega)
    rw [e1, e2]
    exact Nat.mod_eq_of_lt (by omega)
  rw [hno] at hout
  have hsto : le_at out 0x10 8
      = 0x18 + records_size format.general a.entries + data_size a.entries := by
    rw [← hout, List.append_assoc, List.append_assoc,
      le_at_header_sto _ _ (by rw [make_sto]; exact Nat.mod_lt _ (by decide)), make_sto]
    exact Nat.mod_eq_of_lt (by omega)
  refine ⟨hsto, ?_⟩
  rw [hsto, ← hout]
  have hpre : ((header_t.make format.general a.size
      (0x18 + records_size format.general a.entries + data_size a.entries)).write []
      ++ R ++ archive.write.blob a.entries []).length
      = 0x18 + records_size format.general a.entries + data_size a.entries := by
    simp only [List.length_append, header_write_length, List.length_nil, hR, blob_length,
      Nat.zero_add]
  exact drop_of_length _ _ _ hpre

/-! ## Path normalization -/

set_option maxRecDepth 1000000 in
/-- The lookup table of `mapchar` computes the case folding and separator conversion. -/
theorem mapchar_eq_fold_byte : ∀ c : Byte, mapchar c = fold_byte c := by decide

set_option maxRecDepth 1000000 in
theorem fold_byte_val : ∀ c : Byte, (fold_byte c).val =
    if 0x41 ≤ c.val ∧ c.val ≤ 0x5A then c.val + 0x20
    else if c.val = 0x2F then 0x5C else c.val := by decide

set_option maxRecDepth 1000000 in
theorem fold_byte_idem : ∀ c : Byte, fold_byte (fold_byte c) = fold_byte c := by decide

theorem pop_back_loop_eq (n : Nat) :
    ∀ p : List Byte, p.length ≤ n →
      normalize_path.pop_back_loop n p = p.rdropWhile is_separator := by
  induction n with
  | zero =>
    intro p hp
    have : p = [] := List.length_eq_zero.mp (Nat.le_zero.mp hp)
    subst this
    rfl
  | succ n ih =>
    intro p hp
    rcases List.eq_nil_or_concat p with h | ⟨L, b, h⟩
    · subst h
      rfl
    · rw [List.concat_eq_append] at h
      subst h
      have hL : L.length ≤ n := by
        simp only [List.length_append, List.length_cons, List.length_nil] at hp
        omega
      by_cases hb : b = 0x5C
      · subst hb
        have hs : is_separator 0x5C = true := by decide
        rw [List.rdropWhile_concat_pos _ _ _ hs]
        have he : (L ++ [(0x5C : Byte)]).isEmpty = false := by cases L <;> rfl
        simp only [normalize_path.pop_back_loop, List.getLast?_concat, List.dropLast_concat,
          he, Bool.not_false, Bool.true_and, beq_self_eq_true, if_true]
        exact ih L hL
      · have hs : ¬ (is_separator b = true) := by
          simp only [is_separator, decide_eq_true_eq]
          exact hb
        rw [List.rdropWhile_concat_neg _ _ _ hs]
        have hne : (some b == some (0x5C : Byte)) = false := by
          simp only [beq_eq_false_iff_ne, ne_eq, Option.some.injEq]
          exact hb
        simp only [normalize_path.pop_back_loop, List.getLast?_concat, hne, Bool.and_false,
          Bool.false_eq_true, if_false]

theorem erase_front_loop_eq (n : Nat) :
    ∀ p : List Byte, p.length ≤ n →
      normalize_path.erase_front_loop n p = p.dropWhile is_separator := by
  induction n with
  | zero =>
    intro p hp
    have : p = [] := List.length_eq_zero.mp (Nat.le_zero.mp hp)
    subst this
    rfl
  | succ n ih =>
    intro p hp
    cases p with
    | nil => rfl
    | cons b L =>
      have hL : L.length ≤ n := by
        simp only [List.length_cons] at hp
        omega
      by_cases hb : b = 0x5C
      · subst hb
        have hs : is_separator 0x5C = true := by decide
        rw [List.dropWhile_cons_of_pos hs]
        simp only [normalize_path.erase_front_loop, List.head?_cons, List.tail_cons,
          List.isEmpty_cons, Bool.not_false, Bool.true_and, beq_self_eq_true, if_true]
        exact ih L hL
      · have hs : ¬ (is_separator b = true) := by
          simp only [is_separator, decide_eq_true_eq]
          exact hb
        rw [List.dropWhile_cons_of_neg hs]
        have hne : (some b == some (0x5C : Byte)) = false := by
          simp only [beq_eq_false_iff_ne, ne_eq, Option.some.injEq]
          exact hb
        simp only [normalize_path.erase_front_loop, List.head?_cons, hne, Bool.and_false,
          Bool.false_eq_true, if_false]

/-- The function `normalize_path` computes the folded and stripped form of the path, and
replaces it by the placeholder when it is empty or has 260 bytes or more. -/
theorem normalize_path_eq (p : List Byte) :
    normalize_path p =
      if folded_stripped p = [] ∨ 260 ≤ (folded_stripped p).length then placeholder
      else folded_stripped p := by
  have hmap : p.map mapchar = p.map fold_byte :=
    List.map_congr_left (fun c _ => mapchar_eq_fold_byte c)
  have h2 := pop_back_loop_eq (p.map fold_byte).length (p.map fold_byte) (Nat.le_refl _)
  have h3 := erase_front_loop_eq ((p.map fold_byte).rdropWhile is_separator).length
    ((p.map fold_byte).rdropWhile is_separator) (Nat.le_refl _)
  simp only [normalize_path, hmap, h2, h3, folded_stripped, strip_separators, placeholder,
    List.isEmpty_eq_true, Bool.or_eq_true, decide_eq_true_eq, ge_iff_le]

theorem rdropWhile_cons (f : Byte → Bool) (a : Byte) (l : List Byte) :
    (a :: l).rdropWhile f =
      if l.rdropWhile f = [] then (if f a = true then [] else [a])
      else a :: l.rdropWhile f := by
  induction l using List.reverseRecOn with
  | nil => simp [List.rdropWhile_singleton]
  | append_singleton L b ih =>
    by_cases hb : f b = true
    · rw [← List.cons_append, List.rdropWhile_concat_pos _ _ _ hb,
        List.rdropWhile_concat_pos _ _ _ hb]
      exact ih
    · rw [← List.cons_append, List.rdropWhile_concat_neg _ _ _ hb,
        List.rdropWhile_concat_neg _ _ _ hb]
      simp

theorem strip_separators_cons_sep (q : List Byte) :
    strip_separators (0x5C :: q) = strip_separators q := by
  have hs : is_separator 0x5C = true := by decide
  simp only [strip_separators, rdropWhile_cons, hs, if_true]
  by_cases h : q.rdropWhile is_separator = []
  · simp only [h, if_true, List.dropWhile_nil]
  · simp only [h, if_false, List.dropWhile_cons_of_pos hs]

theorem strip_separators_concat_sep (q : List Byte) :
    strip_separators (q ++ [0x5C]) = strip_separators q := by
  have hs : is_separator 0x5C = true := by decide
  simp only [strip_separators, List.rdropWhile_concat_pos _ _ _ hs]

theorem strip_separators_mem (q : List Byte) (c : Byte) (h : c ∈ strip_separators q) :
    c ∈ q :=
  (List.rdropWhile_prefix is_separator q).subset (List.dropWhile_subset is_separator h)

theorem strip_separators_head (q : List Byte) :
    (strip_separators q).head? ≠ some 0x5C := by
  intro h
  have := List.head?_dropWhile_not is_separator (q.rdropWhile is_separator)
  simp only [strip_separators] at h
  rw [h] at this
  exact absurd this (by decide)

theorem strip_separators_last (q : List Byte) :
    (strip_separators q).getLast? ≠ some 0x5C := by
  intro h
  obtain ⟨t, ht⟩ := List.dropWhile_suffix (l := q.rdropWhile is_separator) is_separator
  have hl : (q.rdropWhile is_separator).getLast? = some 0x5C := by
    rw [← ht, List.getLast?_append]
    simp only [strip_separators] at h
    rw [h]
    rfl
  have hne : q.rdropWhile is_separator ≠ [] := by
    intro h0
    rw [h0] at hl
    cases hl
  have hnot := List.rdropWhile_last_not is_separator q hne
  rw [List.getLast?_eq_getLast _ hne] at hl
  have he : (q.rdropWhile is_separator).getLast hne = 0x5C := Option.some.inj hl
  rw [he] at hnot
  exact hnot (by decide)

theorem strip_separators_fixed (r : List Byte)
    (hh : r.head? ≠ some 0x5C) (hl : r.getLast? ≠ some 0x5C) :
    strip_separators r = r := by
  have h1 : r.rdropWhile is_separator = r := by
    rw [List.rdropWhile_eq_self_iff]
    intro hne hp
    apply hl
    rw [List.getLast?_eq_getLast _ hne]
    simp only [is_separator, decide_eq_true_eq] at hp
    rw [hp]
  have h2 : r.dropWhile is_separator = r := by
    cases r with
    | nil => rfl
    | cons a t =>
      apply List.dropWhile_cons_of_neg
      intro hp
      apply hh
      simp only [is_separator, decide_eq_true_eq] at hp
      rw [hp]
      rfl
  rw [strip_separators, h1, h2]

theorem folded_stripped_fixed (r : List Byte)
    (hf : ∀ c ∈ r, fold_byte c = c)
    (hh : r.head? ≠ some 0x5C) (hl : r.getLast? ≠ some 0x5C) :
    folded_stripped r = r := by
  have hm : r.map fold_byte = r := by
    conv_rhs => rw [← List.map_id r]
    exact List.map_congr_left hf
  rw [folded_stripped, hm, strip_separators_fixed r hh hl]

theorem folded_stripped_is_fixed (p : List Byte) :
    folded_stripped (folded_stripped p) = folded_stripped p := by
  apply folded_stripped_fixed
  · intro c hc
    have hm := strip_separators_mem _ _ hc
    obtain ⟨c0, _, h0⟩ := List.mem_map.mp hm
    rw [← h0]
    exact fold_byte_idem c0
  · exact strip_separators_head _
  · exact strip_separators_last _

/-- C11. Normalization idempotence: for every byte string `p`,
`normalize_path (normalize_path p) = normalize_path p`. -/
theorem normalize_path_idempotent (p : List Byte) :
    normalize_path (normalize_path p) = normalize_path p := by
  have hph : normalize_path placeholder = placeholder := by decide
  by_cases h : folded_stripped p = [] ∨ 260 ≤ (folded_stripped p).length
  · rw [normalize_path_eq p, if_pos h]
    exact hph
  · have e : normalize_path p = folded_stripped p := by
      rw [normalize_path_eq p, if_neg h]
    rw [e, normalize_path_eq (folded_stripped p), folded_stripped_is_fixed, if_neg h]

theorem folded_stripped_of_slashes (p : List Byte) (h : ∀ c ∈ p, c = 0x2F ∨ c = 0x5C) :
    folded_stripped p = [] := by
  have hall : ∀ x ∈ p.map fold_byte, is_separator x = true := by
    intro x hx
    obtain ⟨c, hc, hcx⟩ := List.mem_map.mp hx
    rw [← hcx]
    rcases h c hc with h1 | h1 <;> rw [h1] <;> decide
  have h1 : (p.map fold_byte).rdropWhile is_separator = [] :=
    List.rdropWhile_eq_nil_iff.mpr hall
  rw [folded_stripped, strip_separators, h1]
  rfl

/-- C12. Placeholder boundary cases: `normalize_path` returns `"."` for the empty path, for
every path made only of separators (`'/'` and `'\\'` in any mix and number), and for every
path whose case-folded, separator-stripped form is longer than 260 bytes. -/
theorem normalize_path_placeholder (p q : List Byte)
    (hp : ∀ c ∈ p, c = 0x2F ∨ c = 0x5C) (hq : 260 < (folded_stripped q).length) :
    normalize_path [] = placeholder
      ∧ normalize_path p = placeholder
      ∧ normalize_path q = placeholder := by
  refine ⟨by decide, ?_, ?_⟩
  · rw [normalize_path_eq, if_pos (Or.inl (folded_stripped_of_slashes p hp))]
  · rw [normalize_path_eq, if_pos (Or.inr (by omega))]

set_option maxRecDepth 1000000 in
/-- Witness for C12: the path `"/\\/"` and the path of 261 letters `a`. -/
theorem normalize_path_placeholder_witness :
    (∀ c ∈ only_separators, c = 0x2F ∨ c = 0x5C)
      ∧ 260 < (folded_stripped (path_of_a 261)).length
      ∧ normalize_path [] = placeholder
      ∧ normalize_path only_separators = placeholder
      ∧ normalize_path (path_of_a 261) = placeholder :=
  ⟨by decide, by decide,
    normalize_path_placeholder only_separators (path_of_a 261) (by decide) (by decide)⟩

set_option maxRecDepth 1000000 in
/-- Counterexample to C13 as stated: the path of 260 letters `a` has a folded and stripped
form that is not empty and has length at most 260, yet `normalize_path` returns `"."`, not
that form. -/
theorem normalize_path_260_is_placeholder :
    folded_stripped (path_of_a 260) ≠ []
      ∧ (folded_stripped (path_of_a 260)).length ≤ 260
      ∧ normalize_path (path_of_a 260) = placeholder
      ∧ normalize_path (path_of_a 260) ≠ folded_stripped (path_of_a 260) := by
  decide

/-- C13, amended. The length ceiling is 260 exclusive: for every path whose case-folded,
separator-converted and separator-stripped form `r` is non-empty and has length at most
259, `normalize_path` returns `r` itself; and for every path whose form `r` is empty or has
length 260 or more, it returns the placeholder `"."`. -/
theorem normalize_path_ceiling (p q : List Byte)
    (hne : folded_stripped p ≠ []) (hlen : (folded_stripped p).length ≤ 259)
    (hq : folded_stripped q = [] ∨ 260 ≤ (folded_stripped q).length) :
    normalize_path p = folded_stripped p ∧ normalize_path q = placeholder := by
  constructor
  · rw [normalize_path_eq, if_neg]
    intro h
    rcases h with h | h
    · exact hne h
    · omega
  · rw [normalize_path_eq, if_pos hq]

set_option maxRecDepth 1000000 in
/-- Witness for C13, amended: the paths of 259 and of 260 letters `a`. -/
theorem normalize_path_ceiling_witness :
    folded_stripped (path_of_a 259) ≠ []
      ∧ (folded_stripped (path_of_a 259)).length ≤ 259
      ∧ (folded_stripped (path_of_a 260) = []
          ∨ 260 ≤ (folded_stripped (path_of_a 260)).length)
      ∧ normalize_path (path_of_a 259) = folded_stripped (path_of_a 259)
      ∧ normalize_path (path_of_a 260) = placeholder :=
  ⟨by decide, by decide, by decide,
    normalize_path_ceiling (path_of_a 259) (path_of_a 260) (by decide) (by decide)
      (by decide)⟩

set_option maxRecDepth 1000000 in
theorem fold_byte_image : ∀ c : Byte,
    ¬ (0x41 ≤ (fold_byte c).val ∧ (fold_byte c).val ≤ 0x5A) ∧ fold_byte c ≠ 0x2F := by
  decide

set_option maxRecDepth 1000000 in
theorem mapchar_table : ∀ c : Byte,
    (0x41 ≤ c.val ∧ c.val ≤ 0x5A → (mapchar c).val = c.val + 0x20)
      ∧ (c = 0x2F → mapchar c = 0x5C)
      ∧ (¬ (0x41 ≤ c.val ∧ c.val ≤ 0x5A) → c ≠ 0x2F → mapchar c = c) := by
  decide

theorem rdropWhile_append_rtakeWhile (f : Byte → Bool) (l : List Byte) :
    l.rdropWhile f ++ l.rtakeWhile f = l := by
  have h := List.takeWhile_append_dropWhile f l.reverse
  have h2 := congrArg List.reverse h
  rw [List.reverse_append, List.reverse_reverse] at h2
  exact h2

/-- Stripping removes separators only: a path is its stripped form between a run of leading
separators and a run of trailing separators. -/
theorem strip_separators_split (q : List Byte) :
    ∃ pre post : List Byte,
      q = pre ++ strip_separators q ++ post
        ∧ (∀ c ∈ pre, c = 0x5C) ∧ (∀ c ∈ post, c = 0x5C) := by
  refine ⟨(q.rdropWhile is_separator).takeWhile is_separator,
    q.rtakeWhile is_separator, ?_, ?_, ?_⟩
  · rw [strip_separators, List.takeWhile_append_dropWhile, rdropWhile_append_rtakeWhile]
  · intro c hc
    have := List.mem_takeWhile_imp hc
    simpa only [is_separator, decide_eq_true_eq] using this
  · intro c hc
    have := List.mem_rtakeWhile_imp hc
    simpa only [is_separator, decide_eq_true_eq] using this

set_option maxRecDepth 100000 in
/-- C15. Normal form postcondition: for every input string, the output of `normalize_path`
is non-empty, is shorter than 260 bytes, contains no byte `'A'..'Z'` and no `'/'`, and
neither begins nor ends with `'\\'`; `mapchar` maps `'A'..'Z'` to `'a'..'z'`, `'/'` to
`'\\'`, and every other byte (bytes of `0x80` and above included) to itself; and the output
is made of the bytes of the input, each mapped by `mapchar`, in order: the mapped input is a
run of `'\\'`, then a string `r` that neither begins nor ends with `'\\'`, then a run of
`'\\'`, and the output is `r`, or `"."` when `r` is empty or has 260 bytes or more. -/
theorem normalize_path_normal_form (p : List Byte) :
    normalize_path p ≠ []
      ∧ (normalize_path p).length < 260
      ∧ (∀ c ∈ normalize_path p, ¬ (0x41 ≤ c.val ∧ c.val ≤ 0x5A) ∧ c ≠ 0x2F)
      ∧ (normalize_path p).head? ≠ some 0x5C
      ∧ (normalize_path p).getLast? ≠ some 0x5C
      ∧ (∀ c : Byte,
          (0x41 ≤ c.val ∧ c.val ≤ 0x5A → (mapchar c).val = c.val + 0x20)
            ∧ (c = 0x2F → mapchar c = 0x5C)
            ∧ (¬ (0x41 ≤ c.val ∧ c.val ≤ 0x5A) → c ≠ 0x2F → mapchar c = c))
      ∧ (∃ pre r post : List Byte,
          p.map mapchar = pre ++ r ++ post
            ∧ (∀ c ∈ pre, c = 0x5C) ∧ (∀ c ∈ post, c = 0x5C)
            ∧ r.head? ≠ some 0x5C ∧ r.getLast? ≠ some 0x5C
            ∧ normalize_path p = if r = [] ∨ 260 ≤ r.length then [0x2E] else r) := by
  have hlink : ∃ pre r post : List Byte,
      p.map mapchar = pre ++ r ++ post
        ∧ (∀ c ∈ pre, c = 0x5C) ∧ (∀ c ∈ post, c = 0x5C)
        ∧ r.head? ≠ some 0x5C ∧ r.getLast? ≠ some 0x5C
        ∧ normalize_path p = if r = [] ∨ 260 ≤ r.length then [0x2E] else r := by
    have hmap : p.map mapchar = p.map fold_byte :=
      List.map_congr_left (fun c _ => mapchar_eq_fold_byte c)
    obtain ⟨pre, post, hq, hpre, hpost⟩ := strip_separators_split (p.map fold_byte)
    refine ⟨pre, folded_stripped p, post, ?_, hpre, hpost, strip_separators_head _,
      strip_separators_last _, normalize_path_eq p⟩
    rw [hmap]
    exact hq
  refine ⟨?_, ?_, ?_, ?_, ?_, mapchar_table, hlink⟩
  all_goals rw [normalize_path_eq]
  all_goals by_cases h : folded_stripped p = [] ∨ 260 ≤ (folded_stripped p).length
  · rw [if_pos h]; decide
  · rw [if_neg h]; exact fun h0 => h (Or.inl h0)
  · rw [if_pos h]; decide
  · rw [if_neg h]; rw [not_or] at h; omega
  · rw [if_pos h]; decide
  · rw [if_neg h]
    intro c hc
    obtain ⟨c0, _, h0⟩ := List.mem_map.mp (strip_separators_mem _ _ hc)
    rw [← h0]
    exact fold_byte_image c0
  · rw [if_pos h]; decide
  · rw [if_neg h]; exact strip_separators_head _
  · rw [if_pos h]; decide
  · rw [if_neg h]; exact strip_separators_last _

theorem fold_byte_case_variant (c d : Byte) (h : case_variant c d) :
    fold_byte c = fold_byte d := by
  apply Fin.ext
  rw [fold_byte_val, fold_byte_val]
  have hc := c.isLt
  have hd := d.isLt
  rcases h with ⟨h1, h2, h3⟩ | ⟨h1, h2, h3⟩
  · rw [if_pos ⟨h1, h2⟩, if_neg (by omega), if_neg (by omega)]
    omega
  · rw [if_neg (by omega), if_neg (by omega), if_pos ⟨h1, h2⟩]
    omega

theorem fold_byte_slash (c : Byte) (h : is_slash c = true) : fold_byte c = 0x5C := by
  simp only [is_slash, Bool.or_eq_true, decide_eq_true_eq] at h
  rcases h with h | h <;> rw [h] <;> decide

theorem folded_stripped_replace (a b : List Byte) (c d : Byte)
    (h : fold_byte c = fold_byte d) :
    folded_stripped (a ++ c :: b) = folded_stripped (a ++ d :: b) := by
  simp only [folded_stripped, List.map_append, List.map_cons, h]

theorem folded_stripped_leading (p : List Byte) (c : Byte) (h : is_slash c = true) :
    folded_stripped (c :: p) = folded_stripped p := by
  simp only [folded_stripped, List.map_cons, fold_byte_slash c h, strip_separators_cons_sep]

theorem folded_stripped_trailing (p : List Byte) (c : Byte) (h : is_slash c = true) :
    folded_stripped (p ++ [c]) = folded_stripped p := by
  simp only [folded_stripped, List.map_append, List.map_cons, List.map_nil,
    fold_byte_slash c h, strip_separators_concat_sep]

theorem same_spelling_folded_stripped (p q : List Byte) (h : same_spelling p q) :
    folded_stripped q = folded_stripped p := by
  induction h with
  | same p => rfl
  | change_case a b c d hcd =>
    exact (folded_stripped_replace a b c d (fold_byte_case_variant c d hcd)).symm
  | exchange a b c d hc hd =>
    exact (folded_stripped_replace a b c d
      ((fold_byte_slash c hc).trans (fold_byte_slash d hd).symm)).symm
  | add_leading p c hc => exact folded_stripped_leading p c hc
  | remove_leading p c hc => exact (folded_stripped_leading p c hc).symm
  | add_trailing p c hc => exact folded_stripped_trailing p c hc
  | remove_trailing p c hc => exact (folded_stripped_trailing p c hc).symm
  | step p q r _ _ ih1 ih2 => exact ih2.trans ih1

/-- C14. Equivalent spellings normalize to the same string: for every path `p` and every
path `q` obtained from `p` by changing the case of ASCII letters, by exchanging `'/'` and
`'\\'`, or by adding or removing any number of leading or trailing separators,
`normalize_path q = normalize_path p`. -/
theorem same_spelling_normalize (p q : List Byte) (h : same_spelling p q) :
    normalize_path q = normalize_path p := by
  rw [normalize_path_eq q, normalize_path_eq p, same_spelling_folded_stripped p q h]

theorem spelling_two_of_one : same_spelling spelling_one spelling_two :=
  same_spelling.step _ _ _
    (same_spelling.change_case [] [0x62, 0x2F, 0x63] 0x41 0x61
      (Or.inl ⟨by decide, by decide, by decide⟩))
    (same_spelling.step _ _ _
      (same_spelling.change_case [0x61] [0x2F, 0x63] 0x62 0x42
        (Or.inr ⟨by decide, by decide, by decide⟩))
      (same_spelling.step _ _ _
        (same_spelling.exchange [0x61, 0x42] [0x63] 0x2F 0x5C (by decide) (by decide))
        (same_spelling.step _ _ _
          (same_spelling.add_leading [0x61, 0x42, 0x5C, 0x63] 0x5C (by decide))
          (same_spelling.add_trailing [0x5C, 0x61, 0x42, 0x5C, 0x63] 0x2F (by decide)))))

/-- Witness for C14: `"\\aB\\c/"` is a spelling of `"Ab/c"`. -/
theorem same_spelling_normalize_witness :
    same_spelling spelling_one spelling_two
      ∧ normalize_path spelling_two = normalize_path spelling_one :=
  ⟨spelling_two_of_one,
    same_spelling_normalize spelling_one spelling_two spelling_two_of_one⟩

/-! ## String codecs -/

theorem slice_of_append (pre bs post : List Byte) :
    slice (pre ++ (bs ++ post)) pre.length bs.length = bs := by
  rw [← List.append_assoc]
  exact slice_append_mid pre bs post

theorem indexOf_first_zero (r rest : List Byte) (hz : (0 : Byte) ∉ r) :
    (r ++ 0 :: rest).indexOf? 0 = some r.length := by
  induction r with
  | nil => rfl
  | cons a r ih =>
    have ha : ¬ (a = 0) := fun h => hz (by rw [h]; exact List.mem_cons_self _ _)
    have hr : (0 : Byte) ∉ r := fun h => hz (List.mem_cons_of_mem _ h)
    have ih' := ih hr
    simp only [List.indexOf?] at ih' ⊢
    simp only [List.cons_append, List.findIdx?_cons, beq_iff_eq, ha, if_false,
      Bool.false_eq_true]
    rw [List.findIdx?_succ, ih']
    rfl

theorem split_at_first_zero (l : List Byte) (h : (0 : Byte) ∈ l) :
    ∃ r rest, l = r ++ 0 :: rest ∧ (0 : Byte) ∉ r := by
  induction l with
  | nil => cases h
  | cons a l ih =>
    by_cases ha : a = 0
    · exact ⟨[], l, by rw [ha]; rfl, by simp⟩
    · have hl : (0 : Byte) ∈ l := by
        rcases List.mem_cons.mp h with h1 | h1
        · exact absurd h1.symm ha
        · exact h1
      obtain ⟨r, rest, hr, hz⟩ := ih hl
      refine ⟨a :: r, rest, by rw [hr]; rfl, ?_⟩
      intro hm
      rcases List.mem_cons.mp hm with h1 | h1
      · exact ha h1.symm
      · exact hz h1

/-- What `read_zstring` does on a source that holds, from the cursor on, the bytes `r`
without a zero byte and then a zero byte. -/
theorem read_zstring_ok (pre r rest : List Byte) (hz : (0 : Byte) ∉ r) :
    read_zstring { data := pre ++ (r ++ 0 :: rest), pos := pre.length } =
      .ok ({ start := pre.length, length := r.length },
           { data := pre ++ (r ++ 0 :: rest), pos := pre.length + 1 + r.length }) := by
  have e1 := read_bytes_ok { data := pre ++ (r ++ 0 :: rest), pos := pre.length } 1
    (by simp only [List.length_append, List.length_cons]; omega)
  have e2 : (pre ++ (r ++ 0 :: rest)).drop pre.length = r ++ 0 :: rest :=
    List.drop_left pre _
  simp only [read_zstring, e1, e2, indexOf_first_zero r rest hz, bind, Except.bind, pure,
    Except.pure, istream_t.seek_relative]

/-- C17. Null-terminated string read: on a stream that holds a zero byte at or after the
cursor, `read_zstring` returns a view of the bytes from the cursor up to but not including
the first zero byte (the view holds no zero byte, and in the source it is followed by a
zero byte) and leaves the cursor on the byte immediately after that zero byte; so on the
output of `write_zstring s`, for `s` without zero bytes, it returns `s` and consumes all
`|s| + 1` bytes. -/
theorem read_zstring_spec (data : List Byte) (pos : Nat) (h : (0 : Byte) ∈ data.drop pos)
    (s pre rest : List Byte) (hs : (0 : Byte) ∉ s) :
    (∃ v : string_view,
        read_zstring { data := data, pos := pos }
          = .ok (v, { data := data, pos := pos + (v.bytes data).length + 1 })
        ∧ v.start = pos
        ∧ (0 : Byte) ∉ v.bytes data
        ∧ slice data pos ((v.bytes data).length + 1) = v.bytes data ++ [0])
      ∧ (∃ v : string_view,
          read_zstring { data := write_zstring pre s ++ rest, pos := pre.length }
            = .ok (v, { data := write_zstring pre s ++ rest,
                        pos := pre.length + s.length + 1 })
          ∧ v.bytes (write_zstring pre s ++ rest) = s) := by
  constructor
  · obtain ⟨r, rest1, hr, hz⟩ := split_at_first_zero _ h
    have hpos : pos ≤ data.length := by
      by_contra hc
      rw [List.drop_eq_nil_of_le (by omega)] at h
      cases h
    have hd : data = data.take pos ++ (r ++ 0 :: rest1) := by
      rw [← hr, List.take_append_drop]
    have hl : (data.take pos).length = pos := List.length_take_of_le hpos
    have hok := read_zstring_ok (data.take pos) r rest1 hz
    rw [← hd, hl] at hok
    have hb : slice data pos r.length = r := by
      have := slice_of_append (data.take pos) r (0 :: rest1)
      rw [← hd, hl] at this
      exact this
    have hb1 : slice data pos (r.length + 1) = r ++ [0] := by
      have := slice_of_append (data.take pos) (r ++ [0]) rest1
      simp only [List.append_assoc, List.singleton_append, List.length_append,
        List.length_cons, List.length_nil] at this
      rw [← hd, hl] at this
      exact this
    refine ⟨{ start := pos, length := r.length }, ?_, rfl, ?_, ?_⟩
    · simp only [string_view.bytes, hb]
      rw [hok]
      simp only [Nat.add_assoc, Nat.add_comm 1 r.length]
    · simp only [string_view.bytes, hb]
      exact hz
    · simp only [string_view.bytes, hb]
      exact hb1
  · have hw : write_zstring pre s ++ rest = pre ++ (s ++ 0 :: rest) := by
      simp only [write_zstring, ostream_t.write_uint, ostream_t.write_bytes, to_le,
        List.append_assoc, List.singleton_append]
      rfl
    rw [hw]
    refine ⟨{ start := pre.length, length := s.length }, ?_, ?_⟩
    · rw [read_zstring_ok pre s rest hs]
      simp only [Nat.add_assoc, Nat.add_comm 1 s.length]
    · exact slice_of_append pre s (0 :: rest)

/-- Witness for C17: the source `"ab\0c"` read from its start, and the name `"foo"`. -/
theorem read_zstring_spec_witness :
    (0 : Byte) ∈ zstring_source.drop 0
      ∧ (0 : Byte) ∉ foo
      ∧ (∃ v : string_view,
          read_zstring { data := zstring_source, pos := 0 }
            = .ok (v, { data := zstring_source,
                        pos := 0 + (v.bytes zstring_source).length + 1 })
          ∧ v.start = 0
          ∧ (0 : Byte) ∉ v.bytes zstring_source
          ∧ slice zstring_source 0 ((v.bytes zstring_source).length + 1)
              = v.bytes zstring_source ++ [0]) :=
  ⟨by decide, by decide,
    (read_zstring_spec zstring_source 0 (by decide) foo [] [] (by decide)).1⟩

theorem write_bzstring_eq (pre s : List Byte) :
    write_bzstring pre s = pre ++ (to_le 1 (s.length + 1) ++ (s ++ [0])) := by
  have h : to_le 1 ((s.length + 1) % 2 ^ 8) = to_le 1 (s.length + 1) := by
    simp [to_le]
  simp only [write_bzstring, write_zstring, ostream_t.write_uint, ostream_t.write_bytes, h,
    List.append_assoc]
  rfl

/-- C16. The bzstring round trip: for every string `s` of at most 254 bytes (with or without
zero bytes), `write_bzstring` emits exactly one length byte of value `|s| + 1`, the bytes of
`s`, and one zero byte; `read_bzstring` on those bytes returns `s` and leaves the cursor
exactly after the zero byte, `|s| + 2` bytes after where it started. -/
theorem bzstring_round_trip (s pre rest : List Byte) (hlen : s.length ≤ 254) :
    (∃ b : Byte, b.val = s.length + 1 ∧ write_bzstring pre s = pre ++ (b :: (s ++ [0])))
      ∧ (∃ v : string_view,
          read_bzstring { data := write_bzstring pre s ++ rest, pos := pre.length }
            = .ok (v, { data := write_bzstring pre s ++ rest,
                        pos := pre.length + (s.length + 2) })
          ∧ v.bytes (write_bzstring pre s ++ rest) = s) := by
  have hw := write_bzstring_eq pre s
  constructor
  · refine ⟨⟨(s.length + 1) % 256, Nat.mod_lt _ (by decide)⟩, ?_, ?_⟩
    · show (s.length + 1) % 256 = s.length + 1
      omega
    · rw [hw]
      rfl
  · have hd : write_bzstring pre s ++ rest
        = pre ++ to_le 1 (s.length + 1) ++ (s ++ ([0] ++ rest)) := by
      rw [hw]
      simp only [List.append_assoc]
    have hlen_d : (write_bzstring pre s ++ rest).length
        = pre.length + 1 + s.length + 1 + rest.length := by
      rw [hd]
      simp only [List.length_append, to_le_length, List.length_cons, List.length_nil]
      omega
    have hle : le_at (write_bzstring pre s ++ rest) pre.length 1 = s.length + 1 :=
      le_at_of_eq _ pre (s ++ ([0] ++ rest)) pre.length 1 (s.length + 1) hd rfl (by omega)
    have e1 := read_uint_ok { data := write_bzstring pre s ++ rest, pos := pre.length } 1
      (by simp only [hlen_d]; omega)
    simp only [hle] at e1
    have e2 := read_bytes_ok
      { data := write_bzstring pre s ++ rest, pos := pre.length + 1 } (s.length + 1)
      (by simp only [hlen_d]; omega)
    have hv : (s.length + 1 + 2 ^ 32 - 1) % 2 ^ 32 = s.length := by omega
    have hb : slice (write_bzstring pre s ++ rest) (pre.length + 1) s.length = s :=
      slice_of_eq _ (pre ++ to_le 1 (s.length + 1)) s ([0] ++ rest) _ _
        (by rw [hd, List.append_assoc (pre ++ to_le 1 (s.length + 1))])
        (by simp only [List.length_append, to_le_length]) rfl
    refine ⟨{ start := pre.length + 1, length := s.length }, ?_, ?_⟩
    · have hp : pre.length + 1 + (s.length + 1) = pre.length + (s.length + 2) := by omega
      simp only [read_bzstring, e1, e2, hv, hp, bind, Except.bind, pure, Except.pure]
    · exact hb

/-- Witness for C16: the name `"foo"`, written after one byte and followed by one byte. -/
theorem bzstring_round_trip_witness :
    foo.length ≤ 254
      ∧ (∃ b : Byte, b.val = foo.length + 1
          ∧ write_bzstring [0xFF] foo = [0xFF] ++ (b :: (foo ++ [0])))
      ∧ (∃ v : string_view,
          read_bzstring { data := write_bzstring [0xFF] foo ++ [0x01], pos := 1 }
            = .ok (v, { data := write_bzstring [0xFF] foo ++ [0x01],
                        pos := 1 + (foo.length + 2) })
          ∧ v.bytes (write_bzstring [0xFF] foo ++ [0x01]) = foo) :=
  ⟨by decide, bzstring_round_trip foo [0xFF] [0x01] (by decide)⟩

/-! ## Duplicate hashes, the name table and the format dispatch -/

set_option maxRecDepth 100000 in
/-- C18 at the failing input: two records carry the hash `{1,2,3}`; the first declares two
chunks. The read completes with format general and a single file that holds three chunks:
the chunk of the second record has been added to the file of the first. -/
theorem read_duplicate_hash_merges_chunks :
    archive.read {} (some duplicate_hash_bytes) = .ok (merged_index, some format.general)
      ∧ merged_index.entries.map (fun e => e.2.size) = [3] := by
  decide

/-- C20 at the failing inputs: for the directx format `file::write_chunk` reaches the branch
declared unreachable, for every file, sink and running offset. -/
theorem write_chunk_directx_unreachable (self : file) (a_out : ostream_t) (d : Nat) :
    self.write_chunk a_out format.directx d = .error .unreachable := by
  have h : ¬ (format.directx = format.general) := by decide
  simp only [file.write_chunk, if_neg h, if_pos, declare_unreachable, bind, Except.bind]

/-- For the general format `file::write_chunk` emits the zero mod-index byte, the chunk
count byte, the chunk-header size `0x10` and then every chunk record, and does not reach the
branch declared unreachable. -/
theorem write_chunk_general_layout (self : file) (a_out : ostream_t) (d : Nat) :
    self.write_chunk a_out format.general d =
      .ok (file.write_chunk.loop self._chunks
        (a_out ++ [0x00] ++ to_le 1 self.size ++ [0x10, 0x00]) format.general d) := by
  have h1 : to_le 1 (self.size % 2 ^ 8) = to_le 1 self.size := by simp [to_le]
  have h2 : to_le 2 (constants.chunk_header_size_gnrl % 2 ^ 16) = [0x10, 0x00] := by decide
  have h3 : to_le 1 0 = [(0x00 : Byte)] := by decide
  simp only [file.write_chunk, ostream_t.write_uint, if_pos, bind, Except.bind, pure,
    Except.pure, h1, h2, h3]

theorem bind_ok_inv {α β : Type} (x : Except Fault α) (f : α → Except Fault β) (b : β)
    (h : x >>= f = .ok b) : ∃ a, x = .ok a ∧ f a = .ok b := by
  cases x with
  | error e => cases h
  | ok a => exact ⟨a, rfl, h⟩

theorem read_bytes_inv (s : istream_t) (n : Nat) (bs : List Byte) (s1 : istream_t)
    (h : s.read_bytes n = .ok (bs, s1)) :
    s.pos + n ≤ s.data.length ∧ bs = slice s.data s.pos n
      ∧ s1 = { data := s.data, pos := s.pos + n } := by
  by_cases hb : s.pos + n ≤ s.data.length
  · rw [read_bytes_ok s n hb] at h
    have := Except.ok.inj h
    exact ⟨hb, (Prod.mk.inj this).1.symm, (Prod.mk.inj this).2.symm⟩
  · rw [read_bytes_truncated s n (by omega)] at h
    cases h

theorem read_uint_inv (s : istream_t) (w x : Nat) (s1 : istream_t)
    (h : s.read_uint w = .ok (x, s1)) :
    s.pos + w ≤ s.data.length ∧ x = le_at s.data s.pos w
      ∧ s1 = { data := s.data, pos := s.pos + w } := by
  by_cases hb : s.pos + w ≤ s.data.length
  · rw [read_uint_ok s w hb] at h
    have := Except.ok.inj h
    exact ⟨hb, (Prod.mk.inj this).1.symm, (Prod.mk.inj this).2.symm⟩
  · rw [read_uint_truncated s w (by omega)] at h
    cases h

theorem hash_read_inv (s : istream_t) (hsh : hashing.hash) (s1 : istream_t)
    (h : hashing.hash.read s = .ok (hsh, s1)) :
    s1 = { data := s.data, pos := s.pos + 12 } := by
  simp only [hashing.hash.read] at h
  obtain ⟨⟨v1, t1⟩, h1, h⟩ := bind_ok_inv _ _ _ h
  obtain ⟨⟨v2, t2⟩, h2, h⟩ := bind_ok_inv _ _ _ h
  obtain ⟨⟨v3, t3⟩, h3, h⟩ := bind_ok_inv _ _ _ h
  obtain ⟨_, _, e1⟩ := read_uint_inv _ _ _ _ h1
  obtain ⟨_, _, e2⟩ := read_uint_inv _ _ _ _ h2
  obtain ⟨_, _, e3⟩ := read_uint_inv _ _ _ _ h3
  have := (Prod.mk.inj (Except.ok.inj h)).2
  rw [← this, e3, e2, e1]

/-- One name lookup: the name is the length-prefixed string at `strpos`, the running
string-table cursor advances by the bytes consumed, and the record cursor is put back. -/
theorem read_name_inv (s : istream_t) (sp : Nat) (nm : List Byte) (sp1 : Nat)
    (s1 : istream_t) (h : archive.read.name s sp = .ok ((nm, sp1), s1)) :
    s1 = { data := s.data, pos := s.pos }
      ∧ nm = slice s.data (sp + 2) (le_at s.data sp 2)
      ∧ nm.length = le_at s.data sp 2
      ∧ sp1 = sp + 2 + nm.length := by
  simp only [archive.read.name, restore_point] at h
  split at h
  · rename_i a t hb
    obtain ⟨⟨len, t1⟩, h1, hb⟩ := bind_ok_inv _ _ _ hb
    obtain ⟨⟨bs, t2⟩, h2, hb⟩ := bind_ok_inv _ _ _ hb
    obtain ⟨_, elen, e1⟩ := read_uint_inv _ _ _ _ h1
    subst e1
    obtain ⟨hbound, ebs, e2⟩ := read_bytes_inv _ _ _ _ h2
    subst e2
    simp only [istream_t.seek_absolute] at elen ebs hbound
    have hres := Except.ok.inj hb
    simp only [pure, Except.pure, istream_t.tell] at hres
    simp only [istream_t.seek_absolute] at hres
    obtain ⟨ha, ht⟩ := Prod.mk.inj hres
    subst ha ht
    have hfin := Except.ok.inj h
    simp only [istream_t.seek_absolute, istream_t.tell, Prod.mk.injEq] at hfin
    obtain ⟨⟨hn, hsp⟩, hs⟩ := hfin
    have hl : nm.length = len := by
      rw [← hn, ebs]
      exact slice_length _ _ _ hbound
    refine ⟨hs.symm, ?_, ?_, ?_⟩
    · rw [← hn, ebs, elen]
    · rw [hl, elen]
    · rw [← hsp, hl]
  · cases h

theorem restore_point_data {α : Type} (s : istream_t)
    (body : istream_t → Except Fault (α × istream_t)) (a : α) (s1 : istream_t)
    (hbody : ∀ b t, body s = .ok (b, t) → t.data = s.data)
    (h : restore_point s body = .ok (a, s1)) : s1.data = s.data := by
  simp only [restore_point] at h
  split at h
  · rename_i b t hb
    have := (Prod.mk.inj (Except.ok.inj h)).2
    rw [← this]
    exact hbody b t hb
  · cases h

theorem chunk_read_data (c : chunk) (s : istream_t) (fmt : format) (c1 : chunk)
    (s1 : istream_t) (h : chunk.read c s fmt = .ok (c1, s1)) : s1.data = s.data := by
  simp only [chunk.read] at h
  obtain ⟨⟨v1, t1⟩, h1, h⟩ := bind_ok_inv _ _ _ h
  obtain ⟨⟨v2, t2⟩, h2, h⟩ := bind_ok_inv _ _ _ h
  obtain ⟨⟨v3, t3⟩, h3, h⟩ := bind_ok_inv _ _ _ h
  obtain ⟨⟨c4, t4⟩, h4, h⟩ := bind_ok_inv _ _ _ h
  obtain ⟨⟨v5, t5⟩, h5, h⟩ := bind_ok_inv _ _ _ h
  obtain ⟨_, _, e1⟩ := read_uint_inv _ _ _ _ h1
  obtain ⟨_, _, e2⟩ := read_uint_inv _ _ _ _ h2
  obtain ⟨_, _, e3⟩ := read_uint_inv _ _ _ _ h3
  obtain ⟨_, _, e5⟩ := read_uint_inv _ _ _ _ h5
  have d3 : t3.data = s.data := by rw [e3, e2, e1]
  have d4 : t4.data = s.data := by
    by_cases hf : fmt = format.directx
    · rw [if_pos hf] at h4
      simp only [chunk.mips_t.read] at h4
      obtain ⟨⟨m, tm⟩, hm, h4⟩ := bind_ok_inv _ _ _ h4
      obtain ⟨⟨w1, u1⟩, g1, hm⟩ := bind_ok_inv _ _ _ hm
      obtain ⟨⟨w2, u2⟩, g2, hm⟩ := bind_ok_inv _ _ _ hm
      obtain ⟨_, _, f1⟩ := read_uint_inv _ _ _ _ g1
      obtain ⟨_, _, f2⟩ := read_uint_inv _ _ _ _ g2
      have hm' := (Prod.mk.inj (Except.ok.inj hm)).2
      have h4' := (Prod.mk.inj (Except.ok.inj h4)).2
      rw [← h4', ← hm', f2, f1]
      exact d3
    · rw [if_neg hf] at h4
      have h4' := (Prod.mk.inj (Except.ok.inj h4)).2
      rw [← h4']
      exact d3
  have d5 : t5.data = s.data := by rw [e5]; exact d4
  rw [restore_point_data t5 _ c1 s1 ?_ h, d5]
  intro b t hb
  obtain ⟨⟨bs, t7⟩, h7, hb⟩ := bind_ok_inv _ _ _ hb
  obtain ⟨_, _, e7⟩ := read_bytes_inv _ _ _ _ h7
  have hb' := (Prod.mk.inj (Except.ok.inj hb)).2
  rw [← hb', e7]
  rfl

theorem read_chunk_loop_data (n : Nat) :
    ∀ (f : file) (s : istream_t) (fmt : format) (f1 : file) (s1 : istream_t),
      file.read_chunk.loop n f s fmt = .ok (f1, s1) → s1.data = s.data := by
  induction n with
  | zero =>
    intro f s fmt f1 s1 h
    have := (Prod.mk.inj (Except.ok.inj h)).2
    rw [← this]
  | succ n ih =>
    intro f s fmt f1 s1 h
    simp only [file.read_chunk.loop] at h
    obtain ⟨⟨c, t⟩, hc, h⟩ := bind_ok_inv _ _ _ h
    rw [ih _ _ _ _ _ h, chunk_read_data _ _ _ _ _ hc]

theorem read_chunk_data (f : file) (s : istream_t) (fmt : format) (f1 : file)
    (s1 : istream_t) (h : f.read_chunk s fmt = .ok (f1, s1)) : s1.data = s.data := by
  simp only [file.read_chunk] at h
  obtain ⟨⟨cnt, t1⟩, h1, h⟩ := bind_ok_inv _ _ _ h
  obtain ⟨⟨hs, t2⟩, h2, h⟩ := bind_ok_inv _ _ _ h
  obtain ⟨⟨f3, t3⟩, h3, h⟩ := bind_ok_inv _ _ _ h
  obtain ⟨_, _, e1⟩ := read_uint_inv _ _ _ _ h1
  obtain ⟨_, _, e2⟩ := read_uint_inv _ _ _ _ h2
  have d2 : t2.data = s.data := by rw [e2, e1]; rfl
  have d3 : t3.data = s.data := by
    by_cases hg : fmt = format.general
    · rw [if_pos hg] at h3
      have h3' := (Prod.mk.inj (Except.ok.inj h3)).2
      rw [← h3']
      exact d2
    · rw [if_neg hg] at h3
      by_cases hd : fmt = format.directx
      · rw [if_pos hd] at h3
        obtain ⟨⟨hh, th⟩, g, h3⟩ := bind_ok_inv _ _ _ h3
        simp only [file.header_t.read] at g
        obtain ⟨⟨w1, u1⟩, g1, g⟩ := bind_ok_inv _ _ _ g
        obtain ⟨⟨w2, u2⟩, g2, g⟩ := bind_ok_inv _ _ _ g
        obtain ⟨⟨w3, u3⟩, g3, g⟩ := bind_ok_inv _ _ _ g
        obtain ⟨⟨w4, u4⟩, g4, g⟩ := bind_ok_inv _ _ _ g
        obtain ⟨⟨w5, u5⟩, g5, g⟩ := bind_ok_inv _ _ _ g
        obtain ⟨⟨w6, u6⟩, g6, g⟩ := bind_ok_inv _ _ _ g
        obtain ⟨_, _, f1⟩ := read_uint_inv _ _ _ _ g1
        obtain ⟨_, _, f2⟩ := read_uint_inv _ _ _ _ g2
        obtain ⟨_, _, f3'⟩ := read_uint_inv _ _ _ _ g3
        obtain ⟨_, _, f4⟩ := read_uint_inv _ _ _ _ g4
        obtain ⟨_, _, f5⟩ := read_uint_inv _ _ _ _ g5
        obtain ⟨_, _, f6⟩ := read_uint_inv _ _ _ _ g6
        have g' := (Prod.mk.inj (Except.ok.inj g)).2
        have h3' := (Prod.mk.inj (Except.ok.inj h3)).2
        rw [← h3', ← g', f6, f5, f4, f3', f2, f1]
        exact d2
      · rw [if_neg hd] at h3
        cases h3
  rw [read_chunk_loop_data _ _ _ _ _ _ h, d3]

/-- The log of name lookups is an observation only: without it the logged loop is the
record loop of `archive::read`. -/
theorem read_loop_logged_erase (n : Nat) :
    ∀ (fmt : format) (self : archive) (s : istream_t) (sp : Nat),
      archive.read.loop n fmt self s sp =
        match archive.read.loop_logged n fmt self s sp with
        | .ok (a, t, _) => .ok (a, t)
        | .error e => .error e := by
  induction n with
  | zero => intros; rfl
  | succ n ih =>
    intro fmt self s sp
    simp only [archive.read.loop, archive.read.loop_logged, bind, Except.bind]
    cases hashing.hash.read s with
    | error e => rfl
    | ok r1 =>
      obtain ⟨hsh, s1⟩ := r1
      simp only []
      cases archive.read.name s1 sp with
      | error e => rfl
      | ok r2 =>
        obtain ⟨⟨nm, sp1⟩, s2⟩ := r2
        simp only []
        cases ((hashmap.emplace self { hash := hsh, name := nm } {}).1.second
          (hashmap.emplace self { hash := hsh, name := nm } {}).2.1 {}).read_chunk s2 fmt with
        | error e => rfl
        | ok r3 =>
          obtain ⟨f, s3⟩ := r3
          simp only []
          rw [ih]
          cases archive.read.loop_logged n fmt
            ((hashmap.emplace self { hash := hsh, name := nm } {}).1.set_second
              (hashmap.emplace self { hash := hsh, name := nm } {}).2.1 f) s3 sp1 with
          | error e => rfl
          | ok r4 => rfl

/-- The name lookups of the logged record loop: when the loop completes on `n` records, it
has made `n` name lookups; lookup `i` reads at the initial string-table offset plus the sum
over `j < i` of `2 +` the length of name `j`, the name is the length-prefixed string that
starts there, and the record cursor after the lookup equals the cursor before it, which is
12 bytes past the start of the record. -/
theorem loop_logged_cumulative (n : Nat) :
    ∀ (fmt : format) (self : archive) (data : List Byte) (p sto : Nat) (a : archive)
      (s1 : istream_t) (log : List name_lookup),
      archive.read.loop_logged n fmt self { data := data, pos := p } sto = .ok (a, s1, log) →
      log.length = n
        ∧ ∀ (i : Nat) (l : name_lookup), log[i]? = some l →
            l.strpos = sto + ((log.take i).map (fun k => 2 + k.name.length)).sum
              ∧ l.name = slice data (l.strpos + 2) (le_at data l.strpos 2)
              ∧ l.name.length = le_at data l.strpos 2
              ∧ l.before = l.record + 12
              ∧ l.after = l.before := by
  induction n with
  | zero =>
    intro fmt self data p sto a s1 log h
    have hl : log = [] := ((Prod.mk.inj (Prod.mk.inj (Except.ok.inj h)).2).2).symm
    subst hl
    refine ⟨rfl, ?_⟩
    intro i l hl
    cases hl
  | succ n ih =>
    intro fmt self data p sto a s1 log h
    simp only [archive.read.loop_logged] at h
    obtain ⟨⟨hsh, t1⟩, h1, h⟩ := bind_ok_inv _ _ _ h
    obtain ⟨⟨⟨nm, sp1⟩, t2⟩, h2, h⟩ := bind_ok_inv _ _ _ h
    obtain ⟨⟨f, t3⟩, h3, h⟩ := bind_ok_inv _ _ _ h
    obtain ⟨⟨a4, t4, log4⟩, h4, h⟩ := bind_ok_inv _ _ _ h
    have hl0 := ((Prod.mk.inj (Prod.mk.inj (Except.ok.inj h)).2).2).symm
    clear h
    have e1 := hash_read_inv _ _ _ h1
    subst e1
    obtain ⟨e2, hnm, hnl, hsp⟩ := read_name_inv _ _ _ _ _ h2
    subst e2
    have d3 : t3.data = data := read_chunk_data _ _ _ _ _ h3
    have e3 : t3 = { data := data, pos := t3.pos } := by
      rw [← d3]
    rw [e3] at h4
    obtain ⟨hlen, hlog⟩ := ih _ _ _ _ _ _ _ _ h4
    have hl : log = (name_lookup.mk p (p + 12) sto nm (p + 12)) :: log4 := hl0
    subst hl
    refine ⟨by rw [List.length_cons, hlen], ?_⟩
    intro i l hl
    cases i with
    | zero =>
      rw [List.getElem?_cons_zero] at hl
      have := Option.some.inj hl
      subst this
      exact ⟨rfl, hnm, hnl, rfl, rfl⟩
    | succ i =>
      rw [List.getElem?_cons_succ] at hl
      have hl' : log4[i]? = some l := hl
      obtain ⟨g1, g2, g3, g4, g5⟩ := hlog i l hl'
      refine ⟨?_, g2, g3, g4, g5⟩
      rw [g1, hsp]
      simp only [List.take_succ_cons, List.map_cons, List.sum_cons]
      omega

set_option maxRecDepth 100000 in
/-- The logged record loop on `two_file_bytes`, entered as `archive::read` enters it (cursor
`0x18`, names from `0x7A`). -/
theorem loop_logged_cumulative_two_files :
    archive.read.loop_logged 2 format.general {} { data := two_file_bytes, pos := 0x18 } 0x7A
        = .ok (two_file_index, { data := two_file_bytes, pos := 0x74 }, two_file_log)
      ∧ two_file_log.length = 2
      ∧ ∀ (i : Nat) (l : name_lookup), two_file_log[i]? = some l →
          l.strpos = 0x7A + ((two_file_log.take i).map (fun k => 2 + k.name.length)).sum
            ∧ l.name = slice two_file_bytes (l.strpos + 2) (le_at two_file_bytes l.strpos 2)
            ∧ l.name.length = le_at two_file_bytes l.strpos 2
            ∧ l.before = l.record + 12
            ∧ l.after = l.before :=
  ⟨by decide,
    loop_logged_cumulative 2 format.general {} two_file_bytes 0x18 0x7A two_file_index
      { data := two_file_bytes, pos := 0x74 } two_file_log (by decide)⟩

/-! ## The format field on read, the zero length byte, the order of hashes -/

set_option maxRecDepth 100000 in
/-- C21 at the failing input: the header of `zero_format_bytes` passes validation (magic
`BTDX`, version 1), its format field holds 0 and it declares one record; the read reaches
the `default` branch of the switch in `file::read_chunk`, which is declared unreachable. -/
theorem read_zero_format_reaches_unreachable :
    zero_format_bytes.take 4 = [0x42, 0x54, 0x44, 0x58]
      ∧ le_at zero_format_bytes 4 4 = 1
      ∧ le_at zero_format_bytes 8 4 = 0
      ∧ archive.read {} (some zero_format_bytes) = .error .unreachable := by
  decide

/-- C22 at the failing input: the length byte is 0. No byte is consumed after it, and the
view that `read_bzstring` returns has length `0 - 1u = 4294967295`. -/
theorem read_bzstring_zero_length :
    read_bzstring { data := zero_length_source, pos := 0 }
        = .ok ({ start := 1, length := 4294967295 }, { data := zero_length_source, pos := 1 })
      ∧ ¬ ((4294967295 : Nat) ≤ 0) := by
  decide

/-- For a length byte `L` of 1 or more followed by at least `L` bytes, `read_bzstring`
consumes the length byte and `L` bytes, and the view it returns has length `L - 1` and lies
within the `L` bytes consumed. -/
theorem read_bzstring_in_bounds (data : List Byte) (p : Nat)
    (hp : p + 1 ≤ data.length) (h1 : 1 ≤ le_at data p 1)
    (hL : p + 1 + le_at data p 1 ≤ data.length) :
    ∃ v : string_view,
      read_bzstring { data := data, pos := p }
          = .ok (v, { data := data, pos := p + 1 + le_at data p 1 })
        ∧ v.length = le_at data p 1 - 1
        ∧ p + 1 ≤ v.start
        ∧ v.start + v.length ≤ p + 1 + le_at data p 1 := by
  have e1 := read_uint_ok { data := data, pos := p } 1 hp
  have e2 := read_bytes_ok { data := data, pos := p + 1 } (le_at data p 1) hL
  have hlt := le_at_lt data p 1
  have hv : (le_at data p 1 + 2 ^ 32 - 1) % 2 ^ 32 = le_at data p 1 - 1 := by omega
  refine ⟨{ start := p + 1, length := le_at data p 1 - 1 }, ?_, rfl, Nat.le_refl _, ?_⟩
  · simp only [read_bzstring, e1, e2, hv, bind, Except.bind, pure, Except.pure]
  · show p + 1 + (le_at data p 1 - 1) ≤ p + 1 + le_at data p 1
    omega

theorem tes3_numeric_eq (h : tes3.hashing.hash) (hr : h.in_range) :
    h.numeric = h.lo * 2 ^ 32 + h.hi := by
  obtain ⟨hlo, hhi⟩ := hr
  have e1 : h.hi % 2 ^ 64 = h.hi := Nat.mod_eq_of_lt (by omega)
  have e2 : h.lo % 2 ^ 64 = h.lo := Nat.mod_eq_of_lt (by omega)
  have e3 : h.hi <<< (0 * 8) = h.hi := by
    rw [Nat.shiftLeft_eq]
    omega
  have e4 : h.lo <<< (4 * 8) = 2 ^ 32 * h.lo := by
    rw [Nat.shiftLeft_eq]
    omega
  have e5 : (2 ^ 32 * h.lo) % 2 ^ 64 = 2 ^ 32 * h.lo := Nat.mod_eq_of_lt (by omega)
  have e6 := Nat.mul_add_lt_is_or hhi h.lo
  rw [tes3.hashing.hash.numeric, e1, e2, e3, e4, e1, e5, Nat.lor_comm, ← e6]
  omega

theorem compare_lex (a1 a2 b1 b2 : Nat) (ha : a2 < 2 ^ 32) (hb : b2 < 2 ^ 32) :
    compare (a1 * 2 ^ 32 + a2) (b1 * 2 ^ 32 + b2) = (compare a1 b1).then (compare a2 b2) := by
  rcases Nat.lt_trichotomy a1 b1 with h | h | h
  · rw [compare_lt_iff_lt.mpr h]
    exact compare_lt_iff_lt.mpr (by omega)
  · subst h
    rw [compare_eq_iff_eq.mpr rfl]
    rcases Nat.lt_trichotomy a2 b2 with g | g | g
    · rw [compare_lt_iff_lt.mpr g]
      exact compare_lt_iff_lt.mpr (by omega)
    · subst g
      rw [compare_eq_iff_eq.mpr rfl, compare_eq_iff_eq.mpr rfl]
      rfl
    · rw [compare_gt_iff_gt.mpr g]
      exact compare_gt_iff_gt.mpr (by omega)
  · rw [compare_gt_iff_gt.mpr h]
    exact compare_gt_iff_gt.mpr (by omega)

/-- C23. Ordering of simple-revision hashes: for all hashes `a` and `b` (fields in the range
of `std::uint32_t`), `numeric` is `lo * 2^32 + hi`; `a <=> b` is the comparison of the
numeric values, which is the comparison by `lo` first and then by `hi`; `numeric` is
injective; and `a == b` (field by field) holds exactly when `a <=> b` is `equal`. -/
theorem tes3_hash_order (a b : tes3.hashing.hash) (ha : a.in_range) (hb : b.in_range) :
    a.numeric = a.lo * 2 ^ 32 + a.hi
      ∧ tes3.hashing.hash.three_way a b
          = compare (a.lo * 2 ^ 32 + a.hi) (b.lo * 2 ^ 32 + b.hi)
      ∧ tes3.hashing.hash.three_way a b = (compare a.lo b.lo).then (compare a.hi b.hi)
      ∧ (a.numeric = b.numeric → a = b)
      ∧ (tes3.hashing.hash.equal a b = true
          ↔ tes3.hashing.hash.three_way a b = Ordering.eq) := by
  have na := tes3_numeric_eq a ha
  have nb := tes3_numeric_eq b hb
  have hlex := compare_lex a.lo a.hi b.lo b.hi ha.2 hb.2
  have hinj : a.numeric = b.numeric → a = b := by
    intro h
    rw [na, nb] at h
    obtain ⟨alo, ahi⟩ := a
    obtain ⟨blo, bhi⟩ := b
    have h2a : ahi < 2 ^ 32 := ha.2
    have h2b : bhi < 2 ^ 32 := hb.2
    simp only at h
    have e1 : alo = blo := by omega
    have e2 : ahi = bhi := by omega
    rw [e1, e2]
  refine ⟨na, ?_, ?_, hinj, ?_⟩
  · rw [tes3.hashing.hash.three_way, na, nb]
  · rw [tes3.hashing.hash.three_way, na, nb, hlex]
  · rw [tes3.hashing.hash.three_way, compare_eq_iff_eq]
    constructor
    · intro h
      simp only [tes3.hashing.hash.equal, Bool.and_eq_true, decide_eq_true_eq] at h
      obtain ⟨alo, ahi⟩ := a
      obtain ⟨blo, bhi⟩ := b
      simp only at h
      rw [h.1, h.2]
    · intro h
      have := hinj h
      rw [this]
      simp only [tes3.hashing.hash.equal, decide_True, Bool.and_self]

/-- Witness for C23: the hashes `{lo = 1, hi = 5}` and `{lo = 2, hi = 0}`; the first is the
smaller one, by `lo`. -/
theorem tes3_hash_order_witness :
    hash_one_five.in_range ∧ hash_two_zero.in_range
      ∧ tes3.hashing.hash.three_way hash_one_five hash_two_zero
          = (compare hash_one_five.lo hash_two_zero.lo).then
              (compare hash_one_five.hi hash_two_zero.hi)
      ∧ (tes3.hashing.hash.equal hash_one_five hash_two_zero = true
          ↔ tes3.hashing.hash.three_way hash_one_five hash_two_zero = Ordering.eq) :=
  ⟨⟨by decide, by decide⟩, ⟨by decide, by decide⟩,
    (tes3_hash_order hash_one_five hash_two_zero ⟨by decide, by decide⟩
      ⟨by decide, by decide⟩).2.2.1,
    (tes3_hash_order hash_one_five hash_two_zero ⟨by decide, by decide⟩
      ⟨by decide, by decide⟩).2.2.2.2⟩

/-! ## Where the read cannot reach the branch declared unreachable -/

theorem bind_error_inv {α β : Type} (x : Except Fault α) (f : α → Except Fault β)
    (e : Fault) (h : x >>= f = .error e) :
    x = .error e ∨ ∃ a, x = .ok a ∧ f a = .error e := by
  cases x with
  | error e1 =>
    left
    have h1 : (Except.error e1 : Except Fault β) = .error e := h
    rw [Except.error.inj h1]
  | ok a => exact Or.inr ⟨a, rfl, h⟩

theorem read_bytes_trunc (s : istream_t) (n : Nat) (e : Fault)
    (h : s.read_bytes n = .error e) : e = .truncated := by
  by_cases hb : s.pos + n ≤ s.data.length
  · rw [read_bytes_ok s n hb] at h
    cases h
  · rw [read_bytes_truncated s n (by omega)] at h
    exact (Except.error.inj h).symm

theorem read_uint_trunc (s : istream_t) (w : Nat) (e : Fault)
    (h : s.read_uint w = .error e) : e = .truncated := by
  by_cases hb : s.pos + w ≤ s.data.length
  · rw [read_uint_ok s w hb] at h
    cases h
  · rw [read_uint_truncated s w (by omega)] at h
    exact (Except.error.inj h).symm

theorem hash_read_trunc (s : istream_t) (e : Fault)
    (h : hashing.hash.read s = .error e) : e = .truncated := by
  simp only [hashing.hash.read] at h
  rcases bind_error_inv _ _ _ h with h1 | ⟨⟨v1, t1⟩, -, h⟩
  · exact read_uint_trunc _ _ _ h1
  rcases bind_error_inv _ _ _ h with h1 | ⟨⟨v2, t2⟩, -, h⟩
  · exact read_uint_trunc _ _ _ h1
  rcases bind_error_inv _ _ _ h with h1 | ⟨⟨v3, t3⟩, -, h⟩
  · exact read_uint_trunc _ _ _ h1
  cases h

theorem restore_point_error {α : Type} (s : istream_t)
    (body : istream_t → Except Fault (α × istream_t)) (e : Fault)
    (h : restore_point s body = .error e) : body s = .error e := by
  simp only [restore_point] at h
  split at h
  · cases h
  · rename_i e1 hb
    rw [hb, Except.error.inj h]

theorem read_name_trunc (s : istream_t) (sp : Nat) (e : Fault)
    (h : archive.read.name s sp = .error e) : e = .truncated := by
  have hb := restore_point_error _ _ _ h
  rcases bind_error_inv _ _ _ hb with h1 | ⟨⟨v1, t1⟩, -, hb⟩
  · exact read_uint_trunc _ _ _ h1
  rcases bind_error_inv _ _ _ hb with h1 | ⟨⟨v2, t2⟩, -, hb⟩
  · exact read_bytes_trunc _ _ _ h1
  cases hb

theorem chunk_read_trunc (c : chunk) (s : istream_t) (fmt : format) (e : Fault)
    (h : chunk.read c s fmt = .error e) : e = .truncated := by
  simp only [chunk.read] at h
  rcases bind_error_inv _ _ _ h with h1 | ⟨⟨v1, t1⟩, -, h⟩
  · exact read_uint_trunc _ _ _ h1
  rcases bind_error_inv _ _ _ h with h1 | ⟨⟨v2, t2⟩, -, h⟩
  · exact read_uint_trunc _ _ _ h1
  rcases bind_error_inv _ _ _ h with h1 | ⟨⟨v3, t3⟩, -, h⟩
  · exact read_uint_trunc _ _ _ h1
  rcases bind_error_inv _ _ _ h with h4 | ⟨⟨c4, t4⟩, -, h⟩
  · by_cases hf : fmt = format.directx
    · rw [if_pos hf] at h4
      rcases bind_error_inv _ _ _ h4 with hm | ⟨⟨m, tm⟩, -, h4⟩
      · simp only [chunk.mips_t.read] at hm
        rcases bind_error_inv _ _ _ hm with g1 | ⟨⟨w1, u1⟩, -, hm⟩
        · exact read_uint_trunc _ _ _ g1
        rcases bind_error_inv _ _ _ hm with g1 | ⟨⟨w2, u2⟩, -, hm⟩
        · exact read_uint_trunc _ _ _ g1
        cases hm
      · cases h4
    · rw [if_neg hf] at h4
      cases h4
  rcases bind_error_inv _ _ _ h with h1 | ⟨⟨v5, t5⟩, -, h⟩
  · exact read_uint_trunc _ _ _ h1
  have hb := restore_point_error _ _ _ h
  rcases bind_error_inv _ _ _ hb with h1 | ⟨⟨bs, t7⟩, -, hb⟩
  · exact read_bytes_trunc _ _ _ h1
  cases hb

theorem read_chunk_loop_trunc (n : Nat) :
    ∀ (f : file) (s : istream_t) (fmt : format) (e : Fault),
      file.read_chunk.loop n f s fmt = .error e → e = .truncated := by
  induction n with
  | zero =>
    intro f s fmt e h
    cases h
  | succ n ih =>
    intro f s fmt e h
    simp only [file.read_chunk.loop] at h
    rcases bind_error_inv _ _ _ h with h1 | ⟨⟨c, t⟩, -, h⟩
    · exact chunk_read_trunc _ _ _ _ h1
    exact ih _ _ _ _ h

/-- With a format that is general or directx, `file::read_chunk` fails only by running out
of input. -/
theorem read_chunk_trunc (f : file) (s : istream_t) (fmt : format) (e : Fault)
    (hfmt : fmt = format.general ∨ fmt = format.directx)
    (h : f.read_chunk s fmt = .error e) : e = .truncated := by
  simp only [file.read_chunk] at h
  rcases bind_error_inv _ _ _ h with h1 | ⟨⟨cnt, t1⟩, -, h⟩
  · exact read_uint_trunc _ _ _ h1
  rcases bind_error_inv _ _ _ h with h1 | ⟨⟨hs, t2⟩, -, h⟩
  · exact read_uint_trunc _ _ _ h1
  rcases bind_error_inv _ _ _ h with h3 | ⟨⟨f3, t3⟩, -, h⟩
  · by_cases hg : fmt = format.general
    · rw [if_pos hg] at h3
      cases h3
    · rw [if_neg hg] at h3
      have hd : fmt = format.directx := hfmt.resolve_left hg
      rw [if_pos hd] at h3
      rcases bind_error_inv _ _ _ h3 with g | ⟨⟨hh, th⟩, -, h3⟩
      · simp only [file.header_t.read] at g
        rcases bind_error_inv _ _ _ g with g1 | ⟨⟨w1, u1⟩, -, g⟩
        · exact read_uint_trunc _ _ _ g1
        rcases bind_error_inv _ _ _ g with g1 | ⟨⟨w2, u2⟩, -, g⟩
        · exact read_uint_trunc _ _ _ g1
        rcases bind_error_inv _ _ _ g with g1 | ⟨⟨w3, u3⟩, -, g⟩
        · exact read_uint_trunc _ _ _ g1
        rcases bind_error_inv _ _ _ g with g1 | ⟨⟨w4, u4⟩, -, g⟩
        · exact read_uint_trunc _ _ _ g1
        rcases bind_error_inv _ _ _ g with g1 | ⟨⟨w5, u5⟩, -, g⟩
        · exact read_uint_trunc _ _ _ g1
        rcases bind_error_inv _ _ _ g with g1 | ⟨⟨w6, u6⟩, -, g⟩
        · exact read_uint_trunc _ _ _ g1
        cases g
      · cases h3
  exact read_chunk_loop_trunc _ _ _ _ _ h

theorem read_loop_trunc (n : Nat) :
    ∀ (fmt : format) (self : archive) (s : istream_t) (sp : Nat) (e : Fault),
      fmt = format.general ∨ fmt = format.directx →
      archive.read.loop n fmt self s sp = .error e → e = .truncated := by
  induction n with
  | zero =>
    intro fmt self s sp e _ h
    cases h
  | succ n ih =>
    intro fmt self s sp e hfmt h
    simp only [archive.read.loop] at h
    rcases bind_error_inv _ _ _ h with h1 | ⟨⟨hsh, t1⟩, -, h⟩
    · exact hash_read_trunc _ _ h1
    rcases bind_error_inv _ _ _ h with h1 | ⟨⟨⟨nm, sp1⟩, t2⟩, -, h⟩
    · exact read_name_trunc _ _ _ h1
    rcases bind_error_inv _ _ _ h with h1 | ⟨⟨f, t3⟩, -, h⟩
    · exact read_chunk_trunc _ _ _ _ hfmt h1
    exact ih _ _ _ _ _ hfmt h

/-- When the format field of the header holds general or directx, or when the header
declares no record, `archive::read` does not reach the branch declared unreachable: on an
input of at least `0x18` bytes it returns, or it runs out of input. -/
theorem read_known_format_not_unreachable (self : archive) (B : List Byte)
    (hlen : 0x18 ≤ B.length)
    (hfmt : le_at B 8 4 = format.general ∨ le_at B 8 4 = format.directx
      ∨ le_at B 12 4 = 0) :
    archive.read self (some B) ≠ .error .unreachable := by
  rw [archive_read_some self B hlen]
  by_cases hbad : le_at B 0 4 ≠ constants.btdx ∨ le_at B 4 4 ≠ 1
  · rw [if_pos hbad]
    intro h
    cases h
  · rw [if_neg hbad]
    cases hl : archive.read.loop (le_at B 12 4) (le_at B 8 4) (hashmap.clear self)
        { data := B, pos := 0x18 } (le_at B 16 8) with
    | ok r =>
      intro h
      cases h
    | error e =>
      intro h
      have he : e = .unreachable := Except.error.inj h
      rcases hfmt with hf | hf | hz
      · have := read_loop_trunc _ _ _ _ _ _ (Or.inl hf) hl
        rw [this] at he
        cases he
      · have := read_loop_trunc _ _ _ _ _ _ (Or.inr hf) hl
        rw [this] at he
        cases he
      · rw [hz] at hl
        cases hl

/-! ## The chunk records of a texture archive -/

set_option maxRecDepth 100000 in
/-- C5 at the failing input: for the two-file index and the directx format, `make_header`
projects the chunk data to start at `0x90` (header, two file records of `0x18` bytes, three
chunk records of `0x18` bytes) and the names at `0x96`, but `archive::write` reaches
`declare_unreachable()` in the first file record: no chunk record with a `dataOffset` field
and no chunk data are written. -/
theorem write_two_files_directx_unreachable :
    two_file_index.make_header format.directx
        = .ok (header_t.make format.directx 2 0x96, 0x90)
      ∧ archive.write.records two_file_index.entries
          ((header_t.make format.directx 2 0x96).write []) format.directx 0x90
        = .error .unreachable
      ∧ archive.write two_file_index true format.directx = .error .unreachable := by
  decide

/-! ## The name table in the index that `archive::read` builds -/

theorem modify_second_names (v : file) :
    ∀ (l : List (file.key × file)) (it : Nat),
      (l.modify (fun e => (e.1, v)) it).map (fun e => e.1.name)
        = l.map (fun e => e.1.name) := by
  intro l
  induction l with
  | nil =>
    intro it
    rw [List.modify_nil]
  | cons e l ih =>
    intro it
    cases it with
    | zero => rw [List.modify_zero_cons]; rfl
    | succ it =>
      rw [List.modify_succ_cons, List.map_cons, List.map_cons, ih it]

theorem set_second_names (m : archive) (it : Nat) (v : file) :
    (m.set_second it v).entries.map (fun e => e.1.name)
        = m.entries.map (fun e => e.1.name)
      ∧ (m.set_second it v).entries.length = m.entries.length := by
  constructor
  · exact modify_second_names v m.entries it
  · simp only [hashmap.set_second, List.length_modify]

theorem emplace_entries (m : archive) (k : file.key) (v : file) :
    (m.emplace k v).1 = m ∨ (m.emplace k v).1.entries = m.entries ++ [(k, v)] := by
  simp only [hashmap.emplace]
  cases m.entries.findIdx? (fun e => decide (e.1.hash = k.hash)) with
  | none => exact Or.inr rfl
  | some i => exact Or.inl rfl

/-- The keys of the index built by the logged loop: when every record has added an entry
(the index has grown by `n`), the names of the new entries are the names looked up, in
order. -/
theorem loop_logged_names (n : Nat) :
    ∀ (fmt : format) (self : archive) (s : istream_t) (sp : Nat) (a : archive)
      (s1 : istream_t) (log : List name_lookup),
      archive.read.loop_logged n fmt self s sp = .ok (a, s1, log) →
      a.entries.length ≤ self.entries.length + n
        ∧ (a.entries.length = self.entries.length + n →
            a.entries.map (fun e => e.1.name)
              = self.entries.map (fun e => e.1.name) ++ log.map (fun l => l.name)) := by
  induction n with
  | zero =>
    intro fmt self s sp a s1 log h
    have h0 := Prod.mk.inj (Except.ok.inj h)
    have ha : self = a := h0.1
    have hl : log = [] := (Prod.mk.inj h0.2).2.symm
    subst ha hl
    refine ⟨Nat.le_refl _, ?_⟩
    intro _
    rw [List.map_nil, List.append_nil]
  | succ n ih =>
    intro fmt self s sp a s1 log h
    simp only [archive.read.loop_logged] at h
    obtain ⟨⟨hsh, t1⟩, -, h⟩ := bind_ok_inv _ _ _ h
    obtain ⟨⟨⟨nm, sp1⟩, t2⟩, -, h⟩ := bind_ok_inv _ _ _ h
    obtain ⟨⟨f, t3⟩, -, h⟩ := bind_ok_inv _ _ _ h
    obtain ⟨⟨a4, t4, log4⟩, h4, h⟩ := bind_ok_inv _ _ _ h
    have h0 := Prod.mk.inj (Except.ok.inj h)
    have ha : a4 = a := h0.1
    have hl : log = (name_lookup.mk s.pos t1.pos sp nm t2.pos) :: log4 :=
      (Prod.mk.inj h0.2).2.symm
    subst ha hl
    obtain ⟨hle, heq⟩ := ih _ _ _ _ _ _ _ h4
    obtain ⟨hnames2, hlen2⟩ := set_second_names
      (hashmap.emplace self { hash := hsh, name := nm } {}).1
      (hashmap.emplace self { hash := hsh, name := nm } {}).2.1 f
    rw [hlen2] at hle heq
    rw [hnames2] at heq
    rcases emplace_entries self { hash := hsh, name := nm } {} with he | he
    · rw [he] at hle heq
      refine ⟨by omega, ?_⟩
      intro hfull
      omega
    · rw [he] at hle heq
      simp only [List.length_append, List.length_cons, List.length_nil] at hle heq
      refine ⟨by omega, ?_⟩
      intro hfull
      rw [heq (by omega)]
      simp only [List.map_append, List.map_cons, List.map_nil, List.append_assoc,
        List.singleton_append]

theorem read_loop_logged_exists (n : Nat) (fmt : format) (self : archive) (s : istream_t)
    (sp : Nat) (a : archive) (s1 : istream_t)
    (h : archive.read.loop n fmt self s sp = .ok (a, s1)) :
    ∃ log, archive.read.loop_logged n fmt self s sp = .ok (a, s1, log) := by
  rw [read_loop_logged_erase] at h
  cases hl : archive.read.loop_logged n fmt self s sp with
  | error e =>
    rw [hl] at h
    cases h
  | ok r =>
    obtain ⟨a', s', log⟩ := r
    rw [hl] at h
    have h0 := Prod.mk.inj (Except.ok.inj h)
    rw [h0.1, h0.2]
    exact ⟨log, rfl⟩

theorem header_read_length (h0 : header_t) (B : List Byte) (r : header_t × istream_t)
    (h : header_t.read h0 { data := B, pos := 0 } = .ok r) : 0x18 ≤ B.length := by
  simp only [header_t.read] at h
  obtain ⟨⟨v1, t1⟩, h1, h⟩ := bind_ok_inv _ _ _ h
  obtain ⟨⟨v2, t2⟩, h2, h⟩ := bind_ok_inv _ _ _ h
  obtain ⟨⟨v3, t3⟩, h3, h⟩ := bind_ok_inv _ _ _ h
  obtain ⟨⟨v4, t4⟩, h4, h⟩ := bind_ok_inv _ _ _ h
  obtain ⟨⟨v5, t5⟩, h5, h⟩ := bind_ok_inv _ _ _ h
  obtain ⟨_, _, e1⟩ := read_uint_inv _ _ _ _ h1
  subst e1
  obtain ⟨_, _, e2⟩ := read_uint_inv _ _ _ _ h2
  subst e2
  obtain ⟨_, _, e3⟩ := read_uint_inv _ _ _ _ h3
  subst e3
  obtain ⟨_, _, e4⟩ := read_uint_inv _ _ _ _ h4
  subst e4
  obtain ⟨hb, _, _⟩ := read_uint_inv _ _ _ _ h5
  simp only at hb
  omega

/-- A read that returns a format has run the record loop from the cursor `0x18`, with the
file count, the format and the string-table offset of the header, on the cleared index. -/
theorem archive_read_runs_loop (self : archive) (B : List Byte) (a : archive) (fmt : format)
    (h : archive.read self (some B) = .ok (a, some fmt)) :
    fmt = le_at B 8 4
      ∧ ∃ s1, archive.read.loop (le_at B 12 4) fmt self.clear { data := B, pos := 0x18 }
          (le_at B 16 8) = .ok (a, s1) := by
  have hlen : 0x18 ≤ B.length := by
    have h' := h
    simp only [archive.read] at h'
    obtain ⟨r, hr, -⟩ := bind_ok_inv _ _ _ h'
    exact header_read_length _ _ _ hr
  rw [archive_read_some self B hlen] at h
  by_cases hbad : le_at B 0 4 ≠ constants.btdx ∨ le_at B 4 4 ≠ 1
  · rw [if_pos hbad] at h
    have := (Prod.mk.inj (Except.ok.inj h)).2
    cases this
  · rw [if_neg hbad] at h
    cases hl : archive.read.loop (le_at B 12 4) (le_at B 8 4) (hashmap.clear self)
        { data := B, pos := 0x18 } (le_at B 16 8) with
    | error e =>
      rw [hl] at h
      cases h
    | ok r =>
      obtain ⟨a', s'⟩ := r
      rw [hl] at h
      have h0 := Prod.mk.inj (Except.ok.inj h)
      have hf : le_at B 8 4 = fmt := Option.some.inj h0.2
      have ha : a' = a := h0.1
      subst hf ha
      exact ⟨rfl, s', hl⟩

/-- One iteration of the record loop of `archive::read`: the hash is read, the name lookup
reads at the running string-table offset and puts the cursor back, the chunk metadata are
read from 12 bytes past the start of the record, and the loop goes on with the offset moved
on by the bytes of the name. -/
theorem read_loop_step (n : Nat) (fmt : format) (self1 : archive) (s : istream_t) (sp : Nat)
    (r : archive × istream_t) (h : archive.read.loop (n + 1) fmt self1 s sp = .ok r) :
    ∃ (hsh : hashing.hash) (nm : List Byte) (f : file) (s3 : istream_t),
      hashing.hash.read s = .ok (hsh, { data := s.data, pos := s.pos + 12 })
        ∧ archive.read.name { data := s.data, pos := s.pos + 12 } sp
            = .ok ((nm, sp + 2 + nm.length), { data := s.data, pos := s.pos + 12 })
        ∧ nm = slice s.data (sp + 2) (le_at s.data sp 2)
        ∧ nm.length = le_at s.data sp 2
        ∧ ((self1.emplace { hash := hsh, name := nm } {}).1.second
              (self1.emplace { hash := hsh, name := nm } {}).2.1 {}).read_chunk
            { data := s.data, pos := s.pos + 12 } fmt = .ok (f, s3)
        ∧ archive.read.loop n fmt
            ((self1.emplace { hash := hsh, name := nm } {}).1.set_second
              (self1.emplace { hash := hsh, name := nm } {}).2.1 f)
            s3 (sp + 2 + nm.length) = .ok r := by
  simp only [archive.read.loop] at h
  obtain ⟨⟨hsh, t1⟩, h1, h⟩ := bind_ok_inv _ _ _ h
  obtain ⟨⟨⟨nm, sp1⟩, t2⟩, h2, h⟩ := bind_ok_inv _ _ _ h
  obtain ⟨⟨f, t3⟩, h3, h⟩ := bind_ok_inv _ _ _ h
  have e1 := hash_read_inv _ _ _ h1
  subst e1
  obtain ⟨e2, hnm, hnl, hsp⟩ := read_name_inv _ _ _ _ _ h2
  subst e2
  subst hsp
  exact ⟨hsh, nm, f, t3, h1, h2, hnm, hnl, h3, h⟩

/-- C19. Cumulative name table with restored cursor. A read that returns a format has run
the record loop from the cursor `0x18` with the file count and the string-table offset of
the header. When each of the `n` declared records has made its entry, the name of entry `i`
in the resulting index is the length-prefixed string (a `u16` length, then that many bytes)
that starts at `stringTableOffset` plus the sum over `j < i` of `2 +` the length of name
`j`. In every iteration of the loop the name lookup reads at the running string-table
offset, leaves the record cursor where it was before the lookup, 12 bytes (the hash) past
the start of the record, so the chunk metadata are read from there, and moves the running
offset on by the `2 +` length bytes it consumed. -/
theorem name_table_cumulative (self : archive) (B : List Byte) (a : archive) (fmt : format)
    (h : archive.read self (some B) = .ok (a, some fmt)) :
    (∃ s1, archive.read.loop (le_at B 12 4) fmt self.clear { data := B, pos := 0x18 }
        (le_at B 0x10 8) = .ok (a, s1))
      ∧ (a.size = le_at B 12 4 →
          ∀ (i : Nat) (e : file.key × file), a.entries[i]? = some e →
            e.1.name = slice B (name_offset B a.entries i + 2)
                (le_at B (name_offset B a.entries i) 2)
              ∧ e.1.name.length = le_at B (name_offset B a.entries i) 2)
      ∧ (∀ (n : Nat) (self1 : archive) (s : istream_t) (sp : Nat) (r : archive × istream_t),
          archive.read.loop (n + 1) fmt self1 s sp = .ok r →
          ∃ (hsh : hashing.hash) (nm : List Byte) (f : file) (s3 : istream_t),
            hashing.hash.read s = .ok (hsh, { data := s.data, pos := s.pos + 12 })
              ∧ archive.read.name { data := s.data, pos := s.pos + 12 } sp
                  = .ok ((nm, sp + 2 + nm.length), { data := s.data, pos := s.pos + 12 })
              ∧ nm = slice s.data (sp + 2) (le_at s.data sp 2)
              ∧ nm.length = le_at s.data sp 2
              ∧ ((self1.emplace { hash := hsh, name := nm } {}).1.second
                    (self1.emplace { hash := hsh, name := nm } {}).2.1 {}).read_chunk
                  { data := s.data, pos := s.pos + 12 } fmt = .ok (f, s3)
              ∧ archive.read.loop n fmt
                  ((self1.emplace { hash := hsh, name := nm } {}).1.set_second
                    (self1.emplace { hash := hsh, name := nm } {}).2.1 f)
                  s3 (sp + 2 + nm.length) = .ok r) := by
  obtain ⟨-, s1, hloop⟩ := archive_read_runs_loop self B a fmt h
  refine ⟨⟨s1, hloop⟩, ?_, fun n self1 s sp r hr => read_loop_step n fmt self1 s sp r hr⟩
  intro hsize i e he
  obtain ⟨log, hlog⟩ := read_loop_logged_exists _ _ _ _ _ _ _ hloop
  obtain ⟨-, hcum⟩ := loop_logged_cumulative _ _ _ _ _ _ _ _ _ hlog
  obtain ⟨-, hnames⟩ := loop_logged_names _ _ _ _ _ _ _ _ hlog
  have hn : a.entries.map (fun e => e.1.name) = log.map (fun l => l.name) := by
    have := hnames (by
      simp only [hashmap.clear, List.length_nil, Nat.zero_add]
      exact hsize)
    simpa only [hashmap.clear, List.map_nil, List.nil_append] using this
  have hi : (a.entries.map (fun e => e.1.name))[i]? = some e.1.name := by
    rw [List.getElem?_map, he]
    rfl
  rw [hn, List.getElem?_map] at hi
  obtain ⟨l, hl, hln⟩ := Option.map_eq_some'.mp hi
  obtain ⟨g1, g2, g3, -, -⟩ := hcum i l hl
  have hsum : ((log.take i).map (fun k => 2 + k.name.length)).sum
      = ((a.entries.take i).map (fun e => 2 + e.1.name.length)).sum := by
    have e1 : (log.take i).map (fun k => 2 + k.name.length)
        = ((log.map (fun l => l.name)).take i).map (fun nm => 2 + nm.length) := by
      rw [List.map_take, List.map_take, List.map_map]
      rfl
    have e2 : (a.entries.take i).map (fun e => 2 + e.1.name.length)
        = ((a.entries.map (fun e => e.1.name)).take i).map (fun nm => 2 + nm.length) := by
      rw [List.map_take, List.map_take, List.map_map]
      rfl
    rw [e1, e2, hn]
  have hpos : l.strpos = name_offset B a.entries i := by
    rw [g1, hsum]
    rfl
  rw [← hpos, ← hln]
  exact ⟨g2, g3⟩

set_option maxRecDepth 100000 in
/-- Witness for C19: the read of `two_file_bytes`, which declares two records and yields the
two-file index. -/
theorem name_table_cumulative_witness :
    archive.read {} (some two_file_bytes) = .ok (two_file_index, some format.general)
      ∧ two_file_index.size = le_at two_file_bytes 12 4
      ∧ (∃ s1, archive.read.loop (le_at two_file_bytes 12 4) format.general
          (hashmap.clear {}) { data := two_file_bytes, pos := 0x18 }
          (le_at two_file_bytes 0x10 8) = .ok (two_file_index, s1))
      ∧ (∀ (i : Nat) (e : file.key × file), two_file_index.entries[i]? = some e →
          e.1.name = slice two_file_bytes (name_offset two_file_bytes two_file_index.entries i + 2)
              (le_at two_file_bytes (name_offset two_file_bytes two_file_index.entries i) 2)
            ∧ e.1.name.length
              = le_at two_file_bytes (name_offset two_file_bytes two_file_index.entries i) 2) :=
  ⟨by decide, by decide,
    (name_table_cumulative {} two_file_bytes two_file_index format.general (by decide)).1,
    (name_table_cumulative {} two_file_bytes two_file_index format.general (by decide)).2.1
      (by decide)⟩

end bsa
